import Mathlib

/-!
Verification of the `EvaluationDomain` FFT engine (`src/domain.rs`).

The source is generic over a prime field `E::Fr` with 2-adicity `S` and over a
"group" element type `G` (field elements, or projective curve points) that can
be added, subtracted and scaled by field elements.  We embed the field as an
arbitrary `Field F` together with the constants the code consumes
(`S`, `root_of_unity`, `multiplicative_generator`), and the group parameter as
an arbitrary `Module F G`; witnesses instantiate them at `F = G = ZMod 17`
(2-adicity 4, generator 3, canonical root of unity 3).

Buffers (`Vec<G>` / `&mut [G]`) are embedded as `List G`; in-place loops become
explicit state passing with `List.set`, and the thread-pool chunk size of
`worker.scope` becomes an explicit `chunk` parameter wherever the source makes
the result depend on the chunk decomposition (`distribute_powers`).  Loops that
apply one and the same update to every element regardless of the chunking
(`ifft` rescaling, `divide_by_z_on_coset`, `mul_assign`, `sub_assign`, the
recombination pass of `parallel_fft`) are embedded as the per-element map they
perform.
-/

set_option maxHeartbeats 1600000

namespace BellmanDomain

variable {F : Type} [Field F]
variable {G : Type} [AddCommGroup G] [Module F G]

/-- Indexing `a[i]` of a buffer.  Every access performed by the embedded code
is in range; `getD` merely keeps the function total. -/
def aget (a : List G) (i : ℕ) : G := a.getD i 0

@[simp] theorem aget_nil (i : ℕ) : aget ([] : List G) i = 0 := rfl

@[simp] theorem aget_cons_zero (x : G) (l : List G) : aget (x :: l) 0 = x := rfl

@[simp] theorem aget_cons_succ (x : G) (l : List G) (i : ℕ) :
    aget (x :: l) (i + 1) = aget l i := rfl

theorem aget_of_length_le {a : List G} {i : ℕ} (h : a.length ≤ i) : aget a i = 0 := by
  simp [aget, List.getD_eq_getElem?_getD, List.getElem?_eq_none h]

theorem aget_set (l : List G) (i j : ℕ) (x : G) :
    aget (l.set i x) j = if i = j ∧ i < l.length then x else aget l j := by
  induction l generalizing i j with
  | nil => simp [aget]
  | cons a l ih =>
    cases i with
    | zero =>
      cases j with
      | zero => simp
      | succ j => simp
    | succ i =>
      cases j with
      | zero => simp
      | succ j =>
        simp only [List.set_cons_succ, aget_cons_succ, ih, List.length_cons]
        by_cases h : i = j ∧ i < l.length
        · rw [if_pos h, if_pos ⟨by omega, by omega⟩]
        · rw [if_neg h, if_neg (by omega)]

theorem aget_append_left {a : List G} (b : List G) {i : ℕ} (h : i < a.length) :
    aget (a ++ b) i = aget a i := by
  simp [aget, List.getD_eq_getElem?_getD, List.getElem?_append_left h]

theorem aget_append_right (a : List G) {b : List G} {i : ℕ} (h : a.length ≤ i) :
    aget (a ++ b) i = aget b (i - a.length) := by
  simp [aget, List.getD_eq_getElem?_getD, List.getElem?_append_right h]

@[simp] theorem aget_replicate (n : ℕ) (i : ℕ) :
    aget (List.replicate n (0 : G)) i = 0 := by
  simp [aget, List.getD_eq_getElem?_getD, List.getElem?_replicate]
  split <;> simp

/-! ### `fn bitreverse(mut n: u32, l: u32) -> u32`

```rust
let mut r = 0;
for _ in 0..l {
    r = (r << 1) | (n & 1);
    n >>= 1;
}
r
```
-/

/-- The body of `bitreverse`, with the loop counter `l` counting the remaining
iterations and `r` the accumulator. -/
def bitrevAux : ℕ → ℕ → ℕ → ℕ
  | _, 0, r => r
  | n, l + 1, r => bitrevAux (n >>> 1) l ((r <<< 1) ||| (n &&& 1))

/-- `fn bitreverse(n, l)` from `serial_fft`. -/
def bitreverse (n l : ℕ) : ℕ := bitrevAux n l 0

theorem two_mul_or_one (r : ℕ) : 2 * r ||| 1 = 2 * r + 1 := by
  apply Nat.eq_of_testBit_eq
  intro i
  cases i with
  | zero =>
    rw [Nat.testBit_or]
    simp only [Nat.testBit_zero]
    have h1 : 2 * r % 2 = 0 := by omega
    have h2 : (2 * r + 1) % 2 = 1 := by omega
    simp [h1, h2]
  | succ i =>
    have h2 : 2 * r / 2 = r := by omega
    have h3 : (2 * r + 1) / 2 = r := by omega
    rw [Nat.testBit_or, Nat.testBit_succ, Nat.testBit_succ, Nat.testBit_succ, h2, h3]
    simp

theorem shiftLeft_one_or_bit (r n : ℕ) : (r <<< 1) ||| (n &&& 1) = 2 * r + n % 2 := by
  rw [Nat.shiftLeft_eq, Nat.and_one_is_mod, pow_one, Nat.mul_comm r 2]
  rcases Nat.mod_two_eq_zero_or_one n with h | h <;> rw [h]
  · simp
  · exact two_mul_or_one r

theorem bitrevAux_succ (n l r : ℕ) :
    bitrevAux n (l + 1) r = bitrevAux (n / 2) l (2 * r + n % 2) := by
  rw [bitrevAux, shiftLeft_one_or_bit, Nat.shiftRight_eq_div_pow, pow_one]

theorem bitrevAux_shift (l : ℕ) : ∀ n r, bitrevAux n l r = r * 2 ^ l + bitrevAux n l 0 := by
  induction l with
  | zero => intro n r; simp [bitrevAux]
  | succ l ih =>
    intro n r
    rw [bitrevAux_succ, bitrevAux_succ]
    rw [ih (n / 2) (2 * r + n % 2), ih (n / 2) (2 * 0 + n % 2)]
    ring

theorem bitreverse_succ (n l : ℕ) :
    bitreverse n (l + 1) = n % 2 * 2 ^ l + bitreverse (n / 2) l := by
  unfold bitreverse
  rw [bitrevAux_succ, bitrevAux_shift]
  ring_nf

theorem bitreverse_lt (l : ℕ) : ∀ n, bitreverse n l < 2 ^ l := by
  induction l with
  | zero => intro n; simp [bitreverse, bitrevAux]
  | succ l ih =>
    intro n
    rw [bitreverse_succ, pow_succ]
    have h1 : n % 2 ≤ 1 := by omega
    have h2 := ih (n / 2)
    calc n % 2 * 2 ^ l + bitreverse (n / 2) l
        ≤ 1 * 2 ^ l + bitreverse (n / 2) l := by
          exact Nat.add_le_add_right (Nat.mul_le_mul_right _ h1) _
      _ < 2 ^ l + 2 ^ l := by omega
      _ = 2 ^ l * 2 := by ring

theorem bitreverse_append (l : ℕ) :
    ∀ m c, m < 2 ^ l → c < 2 → bitreverse (m + c * 2 ^ l) (l + 1) = 2 * bitreverse m l + c := by
  induction l with
  | zero =>
    intro m c hm hc
    interval_cases m
    rw [bitreverse_succ]
    simp [bitreverse, bitrevAux]
    omega
  | succ l ih =>
    intro m c hm hc
    have hp : 2 ^ (l + 1) = 2 * 2 ^ l := by ring
    have h1 : (m + c * 2 ^ (l + 1)) % 2 = m % 2 := by
      have h : c * 2 ^ (l + 1) = (c * 2 ^ l) * 2 := by ring
      rw [h, Nat.add_mul_mod_self_right]
    have h2 : (m + c * 2 ^ (l + 1)) / 2 = m / 2 + c * 2 ^ l := by
      have h : c * 2 ^ (l + 1) = (c * 2 ^ l) * 2 := by ring
      rw [h, Nat.add_mul_div_right _ _ (by omega)]
    rw [bitreverse_succ (m + c * 2 ^ (l + 1)) (l + 1), h1, h2,
      ih (m / 2) c (by omega) hc, bitreverse_succ m l]
    ring

theorem bitreverse_bitreverse (l : ℕ) : ∀ n, n < 2 ^ l → bitreverse (bitreverse n l) l = n := by
  induction l with
  | zero => intro n hn; interval_cases n; rfl
  | succ l ih =>
    intro n hn
    rw [bitreverse_succ n l]
    have hrev : bitreverse (n / 2) l < 2 ^ l := bitreverse_lt l (n / 2)
    have hb : n % 2 < 2 := by omega
    have hp : 2 ^ (l + 1) = 2 * 2 ^ l := by ring
    rw [Nat.add_comm (n % 2 * 2 ^ l) (bitreverse (n / 2) l),
      bitreverse_append l _ _ hrev hb, ih (n / 2) (by omega)]
    omega

/-! ### `pub fn serial_fft<E, T>(a: &mut [T], omega: &E::Fr, log_n: u32)` -/

/-- `a.swap(rk, k)` (`<[T]>::swap`). -/
def listSwap (a : List G) (i j : ℕ) : List G := (a.set i (aget a j)).set j (aget a i)

/-- The bit-reversal loop `for k in 0..n { let rk = bitreverse(k, log_n); if k < rk
{ a.swap(rk, k); } }` of `serial_fft`; `fuel` counts the remaining iterations of
the loop counter `k`. -/
def swapPass (log_n : ℕ) : ℕ → ℕ → List G → List G
  | 0, _, a => a
  | fuel + 1, k, a =>
    let rk := bitreverse k log_n
    swapPass log_n fuel (k + 1) (if k < rk then listSwap a k rk else a)

/-- The innermost butterfly loop `for j in 0..m { ... }` of `serial_fft` inside
the block starting at `k`, threading the running twiddle `w`; `fuel` counts the
remaining iterations. -/
def jLoop (k m : ℕ) (w_m : F) : ℕ → ℕ → F → List G → List G
  | 0, _, _, a => a
  | fuel + 1, j, w, a =>
    let t := w • aget a (k + j + m)
    let tmp := aget a (k + j) - t
    let a1 := a.set (k + j + m) tmp
    let a2 := a1.set (k + j) (aget a1 (k + j) + t)
    jLoop k m w_m fuel (j + 1) (w * w_m) a2

/-- The block loop `while k < n { let mut w = one(); for j in 0..m { ... };
k += 2*m; }` of one butterfly stage; `fuel` bounds the number of blocks. -/
def kLoop (m : ℕ) (w_m : F) (n : ℕ) : ℕ → ℕ → List G → List G
  | 0, _, a => a
  | fuel + 1, k, a =>
    if k < n then kLoop m w_m n fuel (k + 2 * m) (jLoop k m w_m m 0 1 a)
    else a

/-- The stage loop `for _ in 0..log_n { let w_m = omega.pow(n / (2*m)); ...;
m *= 2; }` of `serial_fft`; `fuel` counts the remaining stages. -/
def stageLoop (omega : F) (n : ℕ) : ℕ → ℕ → List G → List G
  | 0, _, a => a
  | fuel + 1, m, a =>
    let w_m := omega ^ (n / (2 * m))
    stageLoop omega n fuel (2 * m) (kLoop m w_m n n 0 a)

/-- `serial_fft(a, omega, log_n)`: bit-reversal permutation followed by the
`log_n` butterfly stages.  The source asserts `a.len() == 1 << log_n`; theorems
below carry that as a hypothesis. -/
def serial_fft (a : List G) (omega : F) (log_n : ℕ) : List G :=
  let n := a.length
  stageLoop omega n log_n 1 (swapPass log_n n 0 a)

/-! ### `fn parallel_fft<E, T>(a, worker, omega, log_n, log_cpus)` -/

/-- The inner accumulation `for s in 0..num_cpus { let idx = (i + (s << log_new_n))
% (1 << log_n); let mut t = a[idx]; t.group_mul_assign(&elt);
tmp.group_add_assign(&t); elt.mul_assign(&omega_step); }` of `parallel_fft`,
threading `elt`; returns the updated `elt` together with the finished
`tmp[j][i]` entry (which starts at `group_zero`). -/
def sLoop (a : List G) (omega_step : F) (log_n log_new_n i : ℕ) : ℕ → ℕ → F → G → F × G
  | 0, _, elt, acc => (elt, acc)
  | fuel + 1, s, elt, acc =>
    let idx := (i + (s <<< log_new_n)) % (1 <<< log_n)
    let t := elt • aget a idx
    sLoop a omega_step log_n log_new_n i fuel (s + 1) (elt * omega_step) (acc + t)

/-- The `for (i, tmp) in tmp.iter_mut().enumerate()` loop filling one stripe
`tmp[j]` of `parallel_fft` front to back (after each entry,
`elt.mul_assign(&omega_j)`). -/
def iLoop (a : List G) (omega_step omega_j : F) (num_cpus log_n log_new_n : ℕ) :
    ℕ → ℕ → F → List G
  | 0, _, _ => []
  | fuel + 1, i, elt =>
    let r := sLoop a omega_step log_n log_new_n i num_cpus 0 elt 0
    r.2 :: iLoop a omega_step omega_j num_cpus log_n log_new_n fuel (i + 1) (r.1 * omega_j)

/-- `parallel_fft(a, worker, omega, log_n, log_cpus)` (asserts
`log_n >= log_cpus`): each stripe `j` shuffles into a sub-FFT run by
`serial_fft(tmp, &new_omega, log_new_n)`, then the recombination pass writes
`a[idx] = tmp[idx & mask][idx >> log_cpus]` at every index of `a`. -/
def parallel_fft (a : List G) (omega : F) (log_n log_cpus : ℕ) : List G :=
  let num_cpus := 1 <<< log_cpus
  let log_new_n := log_n - log_cpus
  let new_omega := omega ^ num_cpus
  let tmp := (List.range num_cpus).map fun j =>
    serial_fft
      (iLoop a (omega ^ (j <<< log_new_n)) (omega ^ j) num_cpus log_n log_new_n
        (1 <<< log_new_n) 0 1)
      new_omega log_new_n
  let mask := num_cpus - 1
  (List.range a.length).map fun idx => aget (tmp.getD (idx &&& mask) []) (idx >>> log_cpus)

/-! ### Accelerator dispatch: `fn best_fft` and `pub fn gpu_fft` -/

/-- Modelled from the spec: the external accelerator kernel
(`gpu::LockedFFTKernel` / `FFTKernel::radix_fft`; the `gpu` module is not part
of the sources).  `ok` tells whether the `radix_fft` attempt succeeds and `out`
is the buffer it leaves behind on success (`gpu_fft` hands the kernel the whole
buffer, reinterpreted as field elements, whatever the group variant `G` is); a
failing attempt is modelled as leaving the buffer unchanged. -/
structure FFTKernelModel (F : Type) (G : Type) where
  ok : Bool
  out : List G → F → ℕ → List G

/-- The CPU dispatch of `best_fft`: serial when `log_n <= log_cpus`, else
parallel. -/
def cpu_fft (a : List G) (log_cpus : ℕ) (omega : F) (log_n : ℕ) : List G :=
  if log_n ≤ log_cpus then serial_fft a omega log_n
  else parallel_fft a omega log_n log_cpus

/-- `fn best_fft(kern, a, worker, omega, log_n)`; `log_cpus` is
`worker.log_num_cpus()`.  The second component records whether the accelerator
was invoked: `kern.with(|k| gpu_fft(k, a, omega, log_n))` runs exactly when a
handle is present, independently of the element type of the buffer.  `best_fft`
itself always returns `Ok`, so no error component is needed. -/
def best_fft (kern : Option (FFTKernelModel F G)) (a : List G) (log_cpus : ℕ)
    (omega : F) (log_n : ℕ) : List G × Bool :=
  match kern with
  | some k =>
    if k.ok then (k.out a omega log_n, true)
    else (cpu_fft a log_cpus omega log_n, true)
  | none => (cpu_fft a log_cpus omega log_n, false)

/-! ### The `Group` variants `Scalar` and `Point` -/

/-- `pub struct Scalar<E: ScalarEngine>(pub E::Fr)`: the field-element variant
of the `Group` capability set; its `group_*` operations are the field
operations. -/
abbrev Scalar (α : Type) : Type := α

/-- `pub struct Point<G: CurveProjective>(pub G)`: the curve-point variant of
the `Group` capability set.  The curve type is an external collaborator, so it
is embedded as an arbitrary module `P` over the scalar field (curve points
admit addition, subtraction and scalar multiplication). -/
def Point (P : Type) : Type := P

instance {P : Type} [AddCommGroup P] : AddCommGroup (Point P) :=
  inferInstanceAs (AddCommGroup P)

instance {P : Type} [AddCommGroup P] [Module F P] : Module F (Point P) :=
  inferInstanceAs (Module F P)

instance {P : Type} [DecidableEq P] : DecidableEq (Point P) :=
  inferInstanceAs (DecidableEq P)

/-! ### `EvaluationDomain` -/

/-- `SynthesisError` (only the variant this module raises). -/
inductive SynthesisError where
  | PolynomialDegreeTooLarge
deriving DecidableEq

/-- `pub struct EvaluationDomain<E, G>`. -/
structure EvaluationDomain (F : Type) (G : Type) where
  coeffs : List G
  exp : ℕ
  omega : F
  omegainv : F
  geninv : F
  minv : F
deriving DecidableEq

/-- The size-computation loop of `from_coeffs`:
`while m < coeffs.len() { m *= 2; exp += 1; if exp >= E::Fr::S { return Err(..) } }`.
`fuel` bounds the iterations; the call below passes `coeffs.len()`, which always
suffices because `m` doubles from 1. -/
def sizeLoop (len S : ℕ) : ℕ → ℕ → ℕ → Option (ℕ × ℕ)
  | 0, m, exp => if m < len then none else some (m, exp)
  | fuel + 1, m, exp =>
    if m < len then
      if S ≤ exp + 1 then none
      else sizeLoop len S fuel (m * 2) (exp + 1)
    else some (m, exp)

/-- `for _ in exp..E::Fr::S { omega.square(); }`. -/
def squareTimes (x : F) : ℕ → F
  | 0 => x
  | k + 1 => squareTimes (x * x) k

/-- `Vec::resize(m, z)`. -/
def resize (l : List G) (m : ℕ) (z : G) : List G :=
  if m ≤ l.length then l.take m else l ++ List.replicate (m - l.length) z

/-- `EvaluationDomain::from_coeffs(coeffs)`.  The field constants `S`
(`E::Fr::S`), `rou` (`E::Fr::root_of_unity()`) and `gen`
(`E::Fr::multiplicative_generator()`) are parameters of the embedding;
`inverse().unwrap()` is the field inverse and
`from_str(format!("{}", m)).unwrap()` is the natural-number cast of `m`. -/
def from_coeffs (S : ℕ) (rou gen : F) (coeffs : List G) :
    Except SynthesisError (EvaluationDomain F G) :=
  match sizeLoop coeffs.length S coeffs.length 1 0 with
  | none => .error .PolynomialDegreeTooLarge
  | some (m, exp) =>
    let omega := squareTimes rou (S - exp)
    .ok { coeffs := resize coeffs m 0, exp := exp, omega := omega,
          omegainv := omega⁻¹, geninv := gen⁻¹, minv := ((m : F))⁻¹ }

namespace EvaluationDomain

/-- `fft(&mut self, worker, kern)`; `log_cpus` is `worker.log_num_cpus()`.
The returned `gpu::GPUResult` is always `Ok` (`best_fft` swallows accelerator
errors), so the embedding returns the updated domain. -/
def fft (D : EvaluationDomain F G) (kern : Option (FFTKernelModel F G))
    (log_cpus : ℕ) : EvaluationDomain F G :=
  { D with coeffs := (best_fft kern D.coeffs log_cpus D.omega D.exp).1 }

/-- `ifft(&mut self, worker, kern)`: `best_fft` with `omegainv`, then the
chunked rescaling loop `v.group_mul_assign(&minv)`, whose effect on every
element is the same whatever the chunking. -/
def ifft (D : EvaluationDomain F G) (kern : Option (FFTKernelModel F G))
    (log_cpus : ℕ) : EvaluationDomain F G :=
  let c := (best_fft kern D.coeffs log_cpus D.omegainv D.exp).1
  { D with coeffs := c.map fun v => D.minv • v }

end EvaluationDomain

/-- One chunk body of `distribute_powers`: `let mut u = g.pow(&[(i * chunk) as u64]);
for v in v.iter_mut() { v.group_mul_assign(&u); u.mul_assign(&g); }`, with the
seed threaded in as `u`. -/
def applyPowers (g : F) : F → List G → List G
  | _, [] => []
  | u, x :: xs => u • x :: applyPowers g (u * g) xs

/-- The chunk decomposition `self.coeffs.chunks_mut(chunk).enumerate()` of
`distribute_powers`: chunk number `i` covers `coeffs[i*chunk .. (i+1)*chunk]`.
`chunks_mut` requires `chunk != 0` (the guard only keeps the function total). -/
def distributeChunks (g : F) (chunk : ℕ) : ℕ → List G → List G
  | _, [] => []
  | i, x :: xs =>
    if _h : chunk = 0 then x :: xs
    else
      applyPowers g (g ^ (i * chunk)) ((x :: xs).take chunk) ++
        distributeChunks g chunk (i + 1) ((x :: xs).drop chunk)
termination_by _ l => l.length
decreasing_by simp [List.length_drop]; omega

namespace EvaluationDomain

/-- `distribute_powers(&mut self, worker, g)`; `chunk` is the chunk size the
worker chooses in `worker.scope`. -/
def distribute_powers (D : EvaluationDomain F G) (chunk : ℕ) (g : F) :
    EvaluationDomain F G :=
  { D with coeffs := distributeChunks g chunk 0 D.coeffs }

/-- `coset_fft(&mut self, worker, kern)`:
`self.distribute_powers(worker, multiplicative_generator()); self.fft(worker, kern)`. -/
def coset_fft (D : EvaluationDomain F G) (gen : F)
    (kern : Option (FFTKernelModel F G)) (log_cpus chunk : ℕ) :
    EvaluationDomain F G :=
  (D.distribute_powers chunk gen).fft kern log_cpus

/-- `icoset_fft(&mut self, worker, kern)`:
`let geninv = self.geninv; self.ifft(worker, kern); self.distribute_powers(worker, geninv)`. -/
def icoset_fft (D : EvaluationDomain F G)
    (kern : Option (FFTKernelModel F G)) (log_cpus chunk : ℕ) :
    EvaluationDomain F G :=
  let geninv := D.geninv
  (D.ifft kern log_cpus).distribute_powers chunk geninv

/-- `z(&self, tau)`: `tau.pow(m) - one()` where `m = self.coeffs.len()`. -/
def z (D : EvaluationDomain F G) (tau : F) : F := tau ^ D.coeffs.length - 1

/-- `divide_by_z_on_coset(&mut self, worker)`: multiply every coefficient by
`i = z(multiplicative_generator()).inverse().unwrap()` (the chunked loop applies
the same scaling to every element). -/
def divide_by_z_on_coset (D : EvaluationDomain F G) (gen : F) :
    EvaluationDomain F G :=
  let i := (D.z gen)⁻¹
  { D with coeffs := D.coeffs.map fun v => i • v }

/-- `mul_assign(&mut self, worker, other: &EvaluationDomain<E, Scalar<E>>)`:
elementwise `a.group_mul_assign(&b.0)` under the `assert_eq!` of the lengths
(theorems assume equal lengths; `zipWith` realises the element pairing). -/
def mul_assign (D : EvaluationDomain F G) (other : EvaluationDomain F (Scalar F)) :
    EvaluationDomain F G :=
  { D with coeffs := List.zipWith (fun a b => b • a) D.coeffs other.coeffs }

end EvaluationDomain

/-- The discrete Fourier transform with twiddle `ω`: the mathematical yardstick
the in-place transforms are measured against. -/
def dft (n : ℕ) (ω : F) (a : ℕ → G) (k : ℕ) : G :=
  ∑ j ∈ Finset.range n, ω ^ (k * j) • a j

/-! ### A concrete instantiation: the field `ZMod 17`, whose multiplicative
group has 2-adicity `S = 4` with `root_of_unity = multiplicative_generator = 3`
(3 has order 16).  `exD` and `exDB` are the domains `from_coeffs` builds from
the coefficient vectors `[1, 2, 3]` and `[1, 1, 0]`. -/

instance fact_prime_17 : Fact (Nat.Prime 17) := ⟨by norm_num⟩

def exD : EvaluationDomain (ZMod 17) (ZMod 17) :=
  { coeffs := [1, 2, 3, 0], exp := 2, omega := 13, omegainv := (13 : ZMod 17)⁻¹,
    geninv := (3 : ZMod 17)⁻¹, minv := ((4 : ℕ) : ZMod 17)⁻¹ }

def exDB : EvaluationDomain (ZMod 17) (Scalar (ZMod 17)) :=
  { coeffs := [1, 1, 0, 0], exp := 2, omega := 13, omegainv := (13 : ZMod 17)⁻¹,
    geninv := (3 : ZMod 17)⁻¹, minv := ((4 : ℕ) : ZMod 17)⁻¹ }

/-! ### The bit-reversal pass computes the bit-reversal permutation -/

@[simp] theorem length_listSwap (a : List G) (i j : ℕ) :
    (listSwap a i j).length = a.length := by
  simp [listSwap]

theorem aget_listSwap (a : List G) {i j : ℕ} (hi : i < a.length) (hj : j < a.length)
    (t : ℕ) :
    aget (listSwap a i j) t =
      if t = j then aget a i else if t = i then aget a j else aget a t := by
  unfold listSwap
  rw [aget_set, aget_set]
  simp only [List.length_set]
  by_cases h1 : t = j
  · rw [if_pos ⟨h1.symm, hj⟩, if_pos h1]
  · rw [if_neg (by tauto), if_neg h1]
    by_cases h2 : t = i
    · rw [if_pos ⟨h2.symm, hi⟩, if_pos h2]
    · rw [if_neg (by tauto), if_neg h2]

theorem swapPass_invariant (l : ℕ) (a : List G) :
    ∀ fuel k (b : List G), b.length = 2 ^ l →
      (∀ i, i < 2 ^ l →
        aget b i =
          if i < k ∨ bitreverse i l < k then aget a (bitreverse i l) else aget a i) →
      (swapPass l fuel k b).length = 2 ^ l ∧
      ∀ i, i < 2 ^ l →
        aget (swapPass l fuel k b) i =
          if i < k + fuel ∨ bitreverse i l < k + fuel then aget a (bitreverse i l)
          else aget a i := by
  intro fuel
  induction fuel with
  | zero => intro k b hb hinv; exact ⟨hb, by simpa using hinv⟩
  | succ fuel ih =>
    intro k b hb hinv
    rw [swapPass]
    set rk := bitreverse k l with hrk
    set b' := if k < rk then listSwap b k rk else b with hb'
    have hb'len : b'.length = 2 ^ l := by
      rw [hb']; split <;> simp [hb]
    have hinv' : ∀ i, i < 2 ^ l →
        aget b' i =
          if i < k + 1 ∨ bitreverse i l < k + 1 then aget a (bitreverse i l)
          else aget a i := by
      intro i hilt
      by_cases hk : k < 2 ^ l
      · have hrklt : rk < 2 ^ l := bitreverse_lt l k
        have hrev : bitreverse rk l = k := bitreverse_bitreverse l k hk
        by_cases hswap : k < rk
        · rw [hb', if_pos hswap, aget_listSwap b (by omega) (by omega) i]
          by_cases h1 : i = rk
          · subst h1
            rw [if_pos rfl, hinv k hk, if_neg (by omega),
              if_pos (Or.inr (by rw [hrev]; omega)), hrev]
          · rw [if_neg h1]
            by_cases h2 : i = k
            · subst h2
              rw [if_pos rfl, hinv rk hrklt, if_neg (by rw [hrev]; omega),
                if_pos (Or.inl (by omega))]
            · rw [if_neg h2, hinv i hilt]
              have hne : bitreverse i l ≠ k := by
                intro h
                have := bitreverse_bitreverse l i hilt
                rw [h] at this
                omega
              by_cases hc : i < k ∨ bitreverse i l < k
              · rw [if_pos hc, if_pos (by omega)]
              · rw [if_neg hc, if_neg (by omega)]
        · rw [hb', if_neg hswap, hinv i hilt]
          by_cases h2 : i = k
          · subst h2
            by_cases hkk : rk < i
            · rw [if_pos (Or.inr hkk), if_pos (Or.inr (by omega))]
            · have heq : rk = i := by omega
              rw [if_neg (by omega), if_pos (Or.inl (by omega)), ← hrk, heq]
          · by_cases hc : i < k ∨ bitreverse i l < k
            · rw [if_pos hc, if_pos (by omega)]
            · have hne : bitreverse i l ≠ k := by
                intro h
                have h2i := bitreverse_bitreverse l i hilt
                rw [h] at h2i
                omega
              rw [if_neg hc, if_neg (by omega)]
      · have hnoswap : ¬ k < rk := by
          have := bitreverse_lt l k
          omega
        rw [hb', if_neg hnoswap, hinv i hilt]
        have h1 : i < k := by omega
        rw [if_pos (Or.inl h1), if_pos (Or.inl (by omega))]
    have hres := ih (k + 1) b' hb'len hinv'
    refine ⟨hres.1, ?_⟩
    intro i hilt
    rw [(hres.2 i hilt : _)]
    have harith : k + 1 + fuel = k + (fuel + 1) := by omega
    rw [harith]

/-- Net effect of the bit-reversal pass of `serial_fft`. -/
theorem swapPass_eq (l : ℕ) (a : List G) (ha : a.length = 2 ^ l) :
    (swapPass l (2 ^ l) 0 a).length = 2 ^ l ∧
    ∀ i, i < 2 ^ l → aget (swapPass l (2 ^ l) 0 a) i = aget a (bitreverse i l) := by
  have h := swapPass_invariant l a (2 ^ l) 0 a ha
    (by intro i hi; rw [if_neg (by omega)])
  refine ⟨h.1, fun i hi => ?_⟩
  rw [h.2 i hi, if_pos (by omega)]

/-! ### One butterfly stage: the inner loops, pointwise -/

theorem add_mod_of_lt {d k r : ℕ} (hk : k % d = 0) (hr : r < d) : (k + r) % d = r := by
  obtain ⟨q, hq⟩ := Nat.dvd_of_mod_eq_zero hk
  subst hq
  rw [Nat.add_comm, Nat.add_mul_mod_self_left, Nat.mod_eq_of_lt hr]

theorem jLoop_spec (k m : ℕ) (w_m : F) (hm : 1 ≤ m) :
    ∀ fuel j w (b : List G), j + fuel = m → k + 2 * m ≤ b.length →
      (jLoop k m w_m fuel j w b).length = b.length ∧
      ∀ i, aget (jLoop k m w_m fuel j w b) i =
        if k + j ≤ i ∧ i < k + m then
          aget b i + (w * w_m ^ (i - (k + j))) • aget b (i + m)
        else if k + m + j ≤ i ∧ i < k + 2 * m then
          aget b (i - m) - (w * w_m ^ (i - (k + m + j))) • aget b i
        else aget b i := by
  intro fuel
  induction fuel with
  | zero =>
    intro j w b hj hlen
    refine ⟨rfl, fun i => ?_⟩
    rw [if_neg (by omega), if_neg (by omega)]
    rfl
  | succ fuel ih =>
    intro j w b hj hlen
    have hjm : j < m := by omega
    set t := w • aget b (k + j + m) with ht
    set b1 := b.set (k + j + m) (aget b (k + j) - t) with hb1
    set b2 := b1.set (k + j) (aget b1 (k + j) + t) with hb2
    have hstep : jLoop k m w_m (fuel + 1) j w b = jLoop k m w_m fuel (j + 1) (w * w_m) b2 := by
      rw [jLoop]
    have hlen1 : b1.length = b.length := by rw [hb1]; simp
    have hlen2 : b2.length = b.length := by rw [hb2]; simp [hlen1]
    have hg1 : aget b2 (k + j) = aget b (k + j) + t := by
      rw [hb2, aget_set, if_pos ⟨rfl, by omega⟩, hb1, aget_set, if_neg (by omega)]
    have hg2 : aget b2 (k + j + m) = aget b (k + j) - t := by
      rw [hb2, aget_set, if_neg (by omega), hb1, aget_set, if_pos ⟨rfl, by omega⟩]
    have hg3 : ∀ i, i ≠ k + j → i ≠ k + j + m → aget b2 i = aget b i := by
      intro i h1 h2
      rw [hb2, aget_set, if_neg (by omega), hb1, aget_set, if_neg (by omega)]
    have hres := ih (j + 1) (w * w_m) b2 (by omega) (by omega)
    rw [hstep]
    refine ⟨by rw [hres.1, hlen2], fun i => ?_⟩
    rw [hres.2 i]
    by_cases hc1 : k + (j + 1) ≤ i ∧ i < k + m
    · rw [if_pos hc1, if_pos (show k + j ≤ i ∧ i < k + m from by omega),
        hg3 i (by omega) (by omega), hg3 (i + m) (by omega) (by omega)]
      have hexp : w * w_m * w_m ^ (i - (k + (j + 1))) = w * w_m ^ (i - (k + j)) := by
        have h : i - (k + j) = i - (k + (j + 1)) + 1 := by omega
        rw [h, pow_succ]
        ring
      rw [hexp]
    · by_cases hc2 : k + m + (j + 1) ≤ i ∧ i < k + 2 * m
      · rw [if_neg hc1, if_pos hc2, if_neg (by omega : ¬(k + j ≤ i ∧ i < k + m)),
          if_pos (show k + m + j ≤ i ∧ i < k + 2 * m from by omega),
          hg3 (i - m) (by omega) (by omega), hg3 i (by omega) (by omega)]
        have hexp : w * w_m * w_m ^ (i - (k + m + (j + 1))) = w * w_m ^ (i - (k + m + j)) := by
          have h : i - (k + m + j) = i - (k + m + (j + 1)) + 1 := by omega
          rw [h, pow_succ]
          ring
        rw [hexp]
      · rw [if_neg hc1, if_neg hc2]
        by_cases h1 : i = k + j
        · rw [h1, hg1, if_pos (show k + j ≤ k + j ∧ k + j < k + m from ⟨le_refl _, by omega⟩),
            Nat.sub_self, pow_zero, mul_one, ht]
        · by_cases h2 : i = k + j + m
          · rw [h2, hg2, if_neg (by omega : ¬(k + j ≤ k + j + m ∧ k + j + m < k + m)),
              if_pos (show k + m + j ≤ k + j + m ∧ k + j + m < k + 2 * m from by omega)]
            rw [show k + j + m - (k + m + j) = 0 from by omega, pow_zero, mul_one,
              Nat.add_sub_cancel, ht]
          · rw [hg3 i h1 h2, if_neg (by omega), if_neg (by omega)]

theorem kLoop_spec (m : ℕ) (w_m : F) (n : ℕ) (hm : 1 ≤ m) (hn : 2 * m ∣ n) :
    ∀ fuel k (b : List G), b.length = n → k % (2 * m) = 0 → n ≤ k + 2 * m * fuel →
      (kLoop m w_m n fuel k b).length = n ∧
      ∀ i, aget (kLoop m w_m n fuel k b) i =
        if k ≤ i ∧ i < n then
          (if i % (2 * m) < m then aget b i + w_m ^ (i % (2 * m)) • aget b (i + m)
           else aget b (i - m) - w_m ^ (i % (2 * m) - m) • aget b i)
        else aget b i := by
  intro fuel
  induction fuel with
  | zero =>
    intro k b hb hk hfuel
    refine ⟨hb, fun i => ?_⟩
    rw [if_neg (by omega)]
    rfl
  | succ fuel ih =>
    intro k b hb hk hfuel
    by_cases hkn : k < n
    · have hstep : kLoop m w_m n (fuel + 1) k b =
          kLoop m w_m n fuel (k + 2 * m) (jLoop k m w_m m 0 1 b) := by
        rw [kLoop, if_pos hkn]
      have hk2m : k + 2 * m ≤ n := by
        obtain ⟨p, hp⟩ := hn
        obtain ⟨q, hq⟩ := Nat.dvd_of_mod_eq_zero hk
        have hqp : q < p := by
          have := hkn
          rw [hp, hq] at this
          exact Nat.lt_of_mul_lt_mul_left this
        have h2 : 2 * m * (q + 1) ≤ 2 * m * p := Nat.mul_le_mul_left _ (by omega)
        have h3 : 2 * m * (q + 1) = 2 * m * q + 2 * m := by ring
        rw [hp, hq]
        omega
      have hJ := jLoop_spec k m w_m hm m 0 1 b (by omega) (by omega)
      set b' := jLoop k m w_m m 0 1 b with hbp
      have hb'len : b'.length = n := by rw [hJ.1, hb]
      have hJval : ∀ i, aget b' i =
          if k ≤ i ∧ i < k + m then aget b i + w_m ^ (i - k) • aget b (i + m)
          else if k + m ≤ i ∧ i < k + 2 * m then
            aget b (i - m) - w_m ^ (i - (k + m)) • aget b i
          else aget b i := by
        intro i
        rw [hJ.2 i]
        simp only [Nat.add_zero, one_mul]
      have hk' : (k + 2 * m) % (2 * m) = 0 := by
        simp [Nat.add_mod, hk]
      have hIH := ih (k + 2 * m) b' hb'len hk'
        (by
          have h : 2 * m * (fuel + 1) = 2 * m * fuel + 2 * m := by ring
          omega)
      rw [hstep]
      refine ⟨hIH.1, fun i => ?_⟩
      rw [hIH.2 i]
      have hunch : ∀ s, k + 2 * m ≤ s → aget b' s = aget b s := by
        intro s hs
        rw [hJval s, if_neg (by omega), if_neg (by omega)]
      by_cases hik : k + 2 * m ≤ i ∧ i < n
      · rw [if_pos hik, if_pos (show k ≤ i ∧ i < n from by omega)]
        by_cases him : i % (2 * m) < m
        · rw [if_pos him, if_pos him, hunch i (by omega), hunch (i + m) (by omega)]
        · have hi3 : k + 3 * m ≤ i := by
            by_contra hlt3
            push_neg at hlt3
            have hr : i % (2 * m) = i - (k + 2 * m) := by
              have h := add_mod_of_lt hk' (show i - (k + 2 * m) < 2 * m from by omega)
              rw [show k + 2 * m + (i - (k + 2 * m)) = i from by omega] at h
              exact h
            omega
          rw [if_neg him, if_neg him, hunch (i - m) (by omega), hunch i (by omega)]
      · rw [if_neg hik]
        by_cases hik2 : k ≤ i ∧ i < n
        · have hikb : i < k + 2 * m := by omega
          rw [if_pos hik2]
          have hmod : i % (2 * m) = i - k := by
            have h := add_mod_of_lt hk (show i - k < 2 * m from by omega)
            rw [show k + (i - k) = i from by omega] at h
            exact h
          rw [hJval i, hmod]
          by_cases hlow : i - k < m
          · rw [if_pos hlow, if_pos (show k ≤ i ∧ i < k + m from by omega)]
          · rw [if_neg hlow, if_neg (by omega : ¬(k ≤ i ∧ i < k + m)),
              if_pos (show k + m ≤ i ∧ i < k + 2 * m from by omega),
              show i - k - m = i - (k + m) from by omega]
        · rw [if_neg hik2, hJval i, if_neg (by omega), if_neg (by omega)]
    · have hstep : kLoop m w_m n (fuel + 1) k b = b := by
        rw [kLoop, if_neg hkn]
      rw [hstep]
      exact ⟨hb, fun i => by rw [if_neg (by omega)]⟩

/-! ### The stage loop computes the DFT -/

theorem sum_range_two_mul (n : ℕ) (f : ℕ → G) :
    ∑ v ∈ Finset.range (2 * n), f v =
      (∑ u ∈ Finset.range n, f (2 * u)) + ∑ u ∈ Finset.range n, f (2 * u + 1) := by
  induction n with
  | zero => simp
  | succ n ih =>
    have h : 2 * (n + 1) = 2 * n + 1 + 1 := by ring
    rw [h, Finset.sum_range_succ, Finset.sum_range_succ, Finset.sum_range_succ,
      Finset.sum_range_succ, ih]
    abel

theorem stageLoop_dft (L : ℕ) (ω : F) (hω : 1 ≤ L → ω ^ 2 ^ (L - 1) = -1) (a0 : ℕ → G) :
    ∀ d s (c : List G), s + d = L → c.length = 2 ^ L →
      (∀ i, i < 2 ^ L →
        aget c i = ∑ u ∈ Finset.range (2 ^ s),
          (ω ^ (2 ^ (L - s) * (i % 2 ^ s * u))) •
            a0 (u * 2 ^ (L - s) + bitreverse (i / 2 ^ s) (L - s))) →
      (stageLoop ω (2 ^ L) d (2 ^ s) c).length = 2 ^ L ∧
      ∀ i, i < 2 ^ L →
        aget (stageLoop ω (2 ^ L) d (2 ^ s) c) i = dft (2 ^ L) ω a0 i := by
  intro d
  induction d with
  | zero =>
    intro s c hs hc hinv
    have hsL : s = L := by omega
    subst hsL
    refine ⟨hc, fun i hi => ?_⟩
    have h := hinv i hi
    rw [show stageLoop ω (2 ^ s) 0 (2 ^ s) c = c from rfl, h]
    unfold dft
    apply Finset.sum_congr rfl
    intro u hu
    rw [Nat.sub_self, Nat.mod_eq_of_lt hi, Nat.div_eq_of_lt hi]
    simp only [pow_zero, one_mul, Nat.mul_one]
    rfl
  | succ d ihd =>
    intro s c hs hc hinv
    have hsL : s + 1 ≤ L := by omega
    have hL1 : 1 ≤ L := by omega
    have hLs : L - s = L - (s + 1) + 1 := by omega
    have h2M : 2 * 2 ^ s = 2 ^ (s + 1) := by rw [pow_succ]; ring
    have hMpos : 0 < 2 ^ s := Nat.pos_pow_of_pos s (by omega)
    have hLM : (2 : ℕ) ^ L = 2 ^ (L - (s + 1)) * 2 * 2 ^ s := by
      rw [← pow_succ, ← pow_add]
      congr 1
      omega
    have h2E : (2 : ℕ) ^ (L - (s + 1)) * 2 ^ s = 2 ^ (L - 1) := by
      rw [← pow_add]
      congr 1
      omega
    have hωL : ω ^ 2 ^ L = 1 := by
      have h1 := hω hL1
      have h2 : 2 ^ L = 2 ^ (L - 1) * 2 := by
        rw [← pow_succ]
        congr 1
        omega
      rw [h2, pow_mul, h1]
      ring
    have hwm : 2 ^ L / (2 * 2 ^ s) = 2 ^ (L - (s + 1)) := by
      rw [h2M, Nat.pow_div hsL (by omega)]
    have hdvd : 2 * 2 ^ s ∣ 2 ^ L := by
      refine ⟨2 ^ (L - (s + 1)), ?_⟩
      rw [h2M, ← pow_add]
      congr 1
      omega
    have hK := kLoop_spec (2 ^ s) (ω ^ (2 ^ L / (2 * 2 ^ s))) (2 ^ L)
      Nat.one_le_two_pow hdvd (2 ^ L) 0 c hc (Nat.zero_mod _)
      (by
        have h := Nat.le_mul_of_pos_left (2 ^ L) (show 0 < 2 * 2 ^ s from by positivity)
        omega)
    have hinv' : ∀ i, i < 2 ^ L →
        aget (kLoop (2 ^ s) (ω ^ (2 ^ L / (2 * 2 ^ s))) (2 ^ L) (2 ^ L) 0 c) i =
          ∑ u ∈ Finset.range (2 ^ (s + 1)),
            (ω ^ (2 ^ (L - (s + 1)) * (i % 2 ^ (s + 1) * u))) •
              a0 (u * 2 ^ (L - (s + 1)) + bitreverse (i / 2 ^ (s + 1)) (L - (s + 1))) := by
      intro i hi
      obtain ⟨q, r, hi_eq, hrlt⟩ :
          ∃ q r, i = 2 * 2 ^ s * q + r ∧ r < 2 * 2 ^ s :=
        ⟨i / (2 * 2 ^ s), i % (2 * 2 ^ s), (Nat.div_add_mod i (2 * 2 ^ s)).symm,
          Nat.mod_lt i (by positivity)⟩
      have hqlt : q < 2 ^ (L - (s + 1)) := by
        by_contra hq
        push_neg at hq
        have h1 : 2 * 2 ^ s * 2 ^ (L - (s + 1)) ≤ 2 * 2 ^ s * q :=
          Nat.mul_le_mul_left _ hq
        have h2 : 2 * 2 ^ s * 2 ^ (L - (s + 1)) = 2 ^ L := by
          rw [hLM]
          ring
        omega
      have hmod2 : i % (2 * 2 ^ s) = r := by
        rw [hi_eq, Nat.mul_add_mod, Nat.mod_eq_of_lt hrlt]
      have hdiv2 : i / (2 * 2 ^ s) = q := by
        rw [hi_eq, Nat.mul_add_div (by positivity), Nat.div_eq_of_lt hrlt]
        omega
      have hi21 : i % 2 ^ (s + 1) = r := by rw [← h2M, hmod2]
      have hi22 : i / 2 ^ (s + 1) = q := by rw [← h2M, hdiv2]
      have hb0 : bitreverse (2 * q) (L - s) = bitreverse q (L - (s + 1)) := by
        rw [hLs, bitreverse_succ]
        have e1 : 2 * q % 2 = 0 := by omega
        have e2 : 2 * q / 2 = q := by omega
        rw [e1, e2, Nat.zero_mul, Nat.zero_add]
      have hb1 : bitreverse (2 * q + 1) (L - s) =
          2 ^ (L - (s + 1)) + bitreverse q (L - (s + 1)) := by
        rw [hLs, bitreverse_succ]
        have e1 : (2 * q + 1) % 2 = 1 := by omega
        have e2 : (2 * q + 1) / 2 = q := by omega
        rw [e1, e2, Nat.one_mul]
      rw [hK.2 i, if_pos ⟨Nat.zero_le i, hi⟩, hmod2, hi21, hi22, ← h2M,
        sum_range_two_mul]
      by_cases hcase : r < 2 ^ s
      · -- lower half of the block
        have hiM : i + 2 ^ s < 2 ^ L := by
          have h1 : 2 * 2 ^ s * (q + 1) ≤ 2 * 2 ^ s * 2 ^ (L - (s + 1)) :=
            Nat.mul_le_mul_left _ (by omega)
          have h2 : 2 * 2 ^ s * 2 ^ (L - (s + 1)) = 2 ^ L := by
            rw [hLM]
            ring
          have h3 : 2 * 2 ^ s * (q + 1) = 2 * 2 ^ s * q + 2 * 2 ^ s := by ring
          omega
        have himod : i % 2 ^ s = r := by
          rw [hi_eq, show 2 * 2 ^ s * q + r = 2 ^ s * (2 * q) + r from by ring,
            Nat.mul_add_mod, Nat.mod_eq_of_lt hcase]
        have hidiv : i / 2 ^ s = 2 * q := by
          rw [hi_eq, show 2 * 2 ^ s * q + r = 2 ^ s * (2 * q) + r from by ring,
            Nat.mul_add_div hMpos, Nat.div_eq_of_lt hcase]
          omega
        have hiMmod : (i + 2 ^ s) % 2 ^ s = r := by
          rw [hi_eq, show 2 * 2 ^ s * q + r + 2 ^ s = 2 ^ s * (2 * q + 1) + r from by ring,
            Nat.mul_add_mod, Nat.mod_eq_of_lt hcase]
        have hiMdiv : (i + 2 ^ s) / 2 ^ s = 2 * q + 1 := by
          rw [hi_eq, show 2 * 2 ^ s * q + r + 2 ^ s = 2 ^ s * (2 * q + 1) + r from by ring,
            Nat.mul_add_div hMpos, Nat.div_eq_of_lt hcase]
        rw [if_pos hcase, hinv i hi, hinv (i + 2 ^ s) hiM, himod, hidiv, hiMmod, hiMdiv,
          hb0, hb1, hwm, Finset.smul_sum]
        congr 1
        · apply Finset.sum_congr rfl
          intro u hu
          have e1 : 2 ^ (L - s) * (r * u) = 2 ^ (L - (s + 1)) * (r * (2 * u)) := by
            rw [hLs, pow_succ]
            ring
          have e2 : u * 2 ^ (L - s) = 2 * u * 2 ^ (L - (s + 1)) := by
            rw [hLs, pow_succ]
            ring
          rw [e1, e2]
        · apply Finset.sum_congr rfl
          intro u hu
          rw [smul_smul, ← pow_mul, ← pow_add]
          have e1 : 2 ^ (L - (s + 1)) * r + 2 ^ (L - s) * (r * u) =
              2 ^ (L - (s + 1)) * (r * (2 * u + 1)) := by
            rw [hLs, pow_succ]
            ring
          have e2 : u * 2 ^ (L - s) + (2 ^ (L - (s + 1)) + bitreverse q (L - (s + 1))) =
              (2 * u + 1) * 2 ^ (L - (s + 1)) + bitreverse q (L - (s + 1)) := by
            rw [hLs, pow_succ]
            ring
          rw [e1, e2]
      · -- upper half of the block
        obtain ⟨t, ht⟩ : ∃ t, r = 2 ^ s + t := ⟨r - 2 ^ s, by omega⟩
        subst ht
        have htlt : t < 2 ^ s := by omega
        have himod : i % 2 ^ s = t := by
          rw [hi_eq, show 2 * 2 ^ s * q + (2 ^ s + t) = 2 ^ s * (2 * q + 1) + t from by ring,
            Nat.mul_add_mod, Nat.mod_eq_of_lt htlt]
        have hidiv : i / 2 ^ s = 2 * q + 1 := by
          rw [hi_eq, show 2 * 2 ^ s * q + (2 ^ s + t) = 2 ^ s * (2 * q + 1) + t from by ring,
            Nat.mul_add_div hMpos, Nat.div_eq_of_lt htlt]
        have hiM_eq : i - 2 ^ s = 2 ^ s * (2 * q) + t := by
          have hatom : 2 * 2 ^ s * q = 2 ^ s * (2 * q) := by ring
          omega
        have hiMmod : (i - 2 ^ s) % 2 ^ s = t := by
          rw [hiM_eq, Nat.mul_add_mod, Nat.mod_eq_of_lt htlt]
        have hiMdiv : (i - 2 ^ s) / 2 ^ s = 2 * q := by
          rw [hiM_eq, Nat.mul_add_div hMpos, Nat.div_eq_of_lt htlt]
          omega
        have hiMlt : i - 2 ^ s < 2 ^ L := by omega
        have hexpK : 2 ^ s + t - 2 ^ s = t := by omega
        rw [if_neg hcase, hexpK, hinv (i - 2 ^ s) hiMlt, hinv i hi, himod, hidiv,
          hiMmod, hiMdiv, hb0, hb1, hwm, Finset.smul_sum, sub_eq_add_neg, ← Finset.sum_neg_distrib]
        congr 1
        · apply Finset.sum_congr rfl
          intro u hu
          have e1 : 2 ^ (L - (s + 1)) * ((2 ^ s + t) * (2 * u)) =
              2 ^ L * u + 2 ^ (L - s) * (t * u) := by
            rw [hLs, pow_succ, hLM]
            ring
          have e2 : 2 * u * 2 ^ (L - (s + 1)) = u * 2 ^ (L - s) := by
            rw [hLs, pow_succ]
            ring
          rw [e1, e2, pow_add ω (2 ^ L * u) (2 ^ (L - s) * (t * u)), pow_mul ω (2 ^ L) u,
            hωL, one_pow, one_mul]
        · apply Finset.sum_congr rfl
          intro u hu
          rw [smul_smul, ← pow_mul, ← pow_add]
          have e1 : 2 ^ (L - (s + 1)) * ((2 ^ s + t) * (2 * u + 1)) =
              2 ^ (L - 1) + (2 ^ (L - (s + 1)) * t + 2 ^ (L - s) * (t * u)) + 2 ^ L * u := by
            rw [hLs, pow_succ, hLM, ← h2E]
            ring
          have e2 : (2 * u + 1) * 2 ^ (L - (s + 1)) + bitreverse q (L - (s + 1)) =
              u * 2 ^ (L - s) + (2 ^ (L - (s + 1)) + bitreverse q (L - (s + 1))) := by
            rw [hLs, pow_succ]
            ring
          rw [e1, e2,
            pow_add ω (2 ^ (L - 1) + (2 ^ (L - (s + 1)) * t + 2 ^ (L - s) * (t * u))) (2 ^ L * u),
            pow_mul ω (2 ^ L) u, hωL, one_pow, mul_one,
            pow_add ω (2 ^ (L - 1)) (2 ^ (L - (s + 1)) * t + 2 ^ (L - s) * (t * u)),
            hω hL1, neg_one_mul, neg_smul]
    have hres := ihd (s + 1)
      (kLoop (2 ^ s) (ω ^ (2 ^ L / (2 * 2 ^ s))) (2 ^ L) (2 ^ L) 0 c)
      (by omega) hK.1 hinv'
    have hstep : stageLoop ω (2 ^ L) (d + 1) (2 ^ s) c =
        stageLoop ω (2 ^ L) d (2 ^ (s + 1))
          (kLoop (2 ^ s) (ω ^ (2 ^ L / (2 * 2 ^ s))) (2 ^ L) (2 ^ L) 0 c) := by
      rw [stageLoop, h2M]
    rw [hstep]
    exact hres

/-- `serial_fft` computes the discrete Fourier transform with twiddle `omega`,
provided the buffer length matches `1 << log_n` (the source's assertion) and
`omega` is a primitive root of that order. -/
theorem serial_fft_dft (a : List G) (ω : F) (L : ℕ) (ha : a.length = 2 ^ L)
    (hω : 1 ≤ L → ω ^ 2 ^ (L - 1) = -1) :
    (serial_fft a ω L).length = 2 ^ L ∧
    ∀ i, i < 2 ^ L → aget (serial_fft a ω L) i = dft (2 ^ L) ω (aget a) i := by
  have hswap := swapPass_eq L a ha
  have hinv0 : ∀ i, i < 2 ^ L →
      aget (swapPass L (2 ^ L) 0 a) i =
        ∑ u ∈ Finset.range (2 ^ 0),
          (ω ^ (2 ^ (L - 0) * (i % 2 ^ 0 * u))) •
            aget a (u * 2 ^ (L - 0) + bitreverse (i / 2 ^ 0) (L - 0)) := by
    intro i hi
    rw [hswap.2 i hi]
    simp [Finset.sum_range_one, Nat.mod_one, Nat.div_one]
  have hst := stageLoop_dft L ω hω (aget a) L 0 (swapPass L (2 ^ L) 0 a)
    (by omega) hswap.1 hinv0
  have hdef : serial_fft a ω L = stageLoop ω (2 ^ L) L (2 ^ 0) (swapPass L (2 ^ L) 0 a) := by
    simp only [serial_fft]
    rw [ha, pow_zero]
  rw [hdef]
  exact ⟨hst.1, hst.2⟩

/-! ### Inversion of the DFT -/

theorem geom_sum_eq_zero {ζ : F} (n : ℕ) (hζn : ζ ^ n = 1) (hζ : ζ ≠ 1) :
    ∑ j ∈ Finset.range n, ζ ^ j = 0 := by
  have h := geom_sum_mul ζ n
  rw [hζn, sub_self] at h
  rcases mul_eq_zero.mp h with h1 | h1
  · exact h1
  · exact absurd (by rwa [sub_eq_zero] at h1) hζ

/-- Injectivity of `i ↦ ω ^ i` below `2 ^ L` for a primitive `2 ^ L`-th root of
unity, in a field in which `-1 ≠ 1`. -/
theorem pow_inj_of_primitive {L : ℕ} {ω : F} (hω1 : ω ^ 2 ^ L = 1)
    (hω : 1 ≤ L → ω ^ 2 ^ (L - 1) = -1) (hne : (-1 : F) ≠ 1) :
    ∀ i, i < 2 ^ L → ∀ j, j < 2 ^ L → ω ^ i = ω ^ j → i = j := by
  have horder : orderOf ω = 2 ^ L := by
    cases Nat.eq_zero_or_pos L with
    | inl h0 =>
      subst h0
      rw [pow_zero] at hω1 ⊢
      rw [pow_one] at hω1
      rw [hω1]
      exact orderOf_one
    | inr hL =>
      have hdvd : orderOf ω ∣ 2 ^ L := orderOf_dvd_of_pow_eq_one hω1
      obtain ⟨t, htL, ht⟩ := (Nat.dvd_prime_pow Nat.prime_two).mp hdvd
      rw [ht]
      congr 1
      by_contra hne'
      have htlt : t ≤ L - 1 := by omega
      have h1 : ω ^ 2 ^ (L - 1) = 1 :=
        orderOf_dvd_iff_pow_eq_one.mp (ht ▸ pow_dvd_pow 2 htlt)
      rw [hω hL] at h1
      exact hne h1

  intro i hi j hj hij
  have := pow_injOn_Iio_orderOf (x := ω)
  exact this (by rw [horder]; exact hi) (by rw [horder]; exact hj) hij

theorem dft_dft {n : ℕ} {ω : F} (hn : 0 < n) (hω1 : ω ^ n = 1)
    (hinj : ∀ i, i < n → ∀ j, j < n → ω ^ i = ω ^ j → i = j)
    (a : ℕ → G) (k : ℕ) (hk : k < n) :
    dft n ω⁻¹ (dft n ω a) k = (n : F) • a k := by
  have hω0 : ω ≠ 0 := by
    intro h
    rw [h, zero_pow (by omega : n ≠ 0)] at hω1
    exact one_ne_zero hω1.symm
  have hinvk : ω⁻¹ ^ k * ω ^ k = 1 := by
    rw [← mul_pow, inv_mul_cancel₀ hω0, one_pow]
  unfold dft
  calc ∑ j ∈ Finset.range n, (ω⁻¹) ^ (k * j) • ∑ i ∈ Finset.range n, ω ^ (j * i) • a i
      = ∑ j ∈ Finset.range n, ∑ i ∈ Finset.range n, ((ω⁻¹ ^ k * ω ^ i) ^ j) • a i := by
        apply Finset.sum_congr rfl
        intro j hj
        rw [Finset.smul_sum]
        apply Finset.sum_congr rfl
        intro i hi
        rw [smul_smul, mul_pow, ← pow_mul, ← pow_mul, Nat.mul_comm i j]
    _ = ∑ i ∈ Finset.range n, ∑ j ∈ Finset.range n, ((ω⁻¹ ^ k * ω ^ i) ^ j) • a i :=
        Finset.sum_comm
    _ = ∑ i ∈ Finset.range n, (∑ j ∈ Finset.range n, (ω⁻¹ ^ k * ω ^ i) ^ j) • a i := by
        apply Finset.sum_congr rfl
        intro i hi
        rw [Finset.sum_smul]
    _ = (n : F) • a k := by
        rw [Finset.sum_eq_single_of_mem k (Finset.mem_range.mpr hk)]
        · rw [hinvk]
          simp [Finset.sum_const, Finset.card_range]
        · intro i hi hik
          have hζn : (ω⁻¹ ^ k * ω ^ i) ^ n = 1 := by
            rw [mul_pow, ← pow_mul, ← pow_mul, Nat.mul_comm k n, Nat.mul_comm i n,
              pow_mul, pow_mul, inv_pow, hω1, inv_one, one_pow, one_pow, one_mul]
          have hζ : ω⁻¹ ^ k * ω ^ i ≠ 1 := by
            intro hone
            apply hik
            apply hinj i (Finset.mem_range.mp hi) k hk
            calc ω ^ i = (ω⁻¹ ^ k * ω ^ k) * ω ^ i := by rw [hinvk, one_mul]
              _ = (ω⁻¹ ^ k * ω ^ i) * ω ^ k := by ring
              _ = ω ^ k := by rw [hone, one_mul]
          rw [geom_sum_eq_zero n hζn hζ, zero_smul]

/-! ### `parallel_fft` computes the same DFT -/

theorem sum_range_add_split (a b : ℕ) (f : ℕ → G) :
    ∑ k ∈ Finset.range (a + b), f k =
      (∑ k ∈ Finset.range a, f k) + ∑ k ∈ Finset.range b, f (a + k) := by
  induction b with
  | zero => simp
  | succ b ih =>
    rw [show a + (b + 1) = a + b + 1 from rfl, Finset.sum_range_succ, ih,
      Finset.sum_range_succ, add_assoc]

theorem sum_range_prod_split (P m : ℕ) (f : ℕ → G) :
    ∑ k ∈ Finset.range (P * m), f k =
      ∑ q ∈ Finset.range P, ∑ r ∈ Finset.range m, f (q * m + r) := by
  induction P with
  | zero => simp
  | succ P ih =>
    rw [Finset.sum_range_succ, ← ih, show (P + 1) * m = P * m + m from by ring,
      sum_range_add_split]

theorem pow_eq_pow_of_mod {ω : F} {N : ℕ} (hω : ω ^ N = 1) (c1 c2 : ℕ) {e1 e2 : ℕ}
    (h : e1 + N * c1 = e2 + N * c2) : ω ^ e1 = ω ^ e2 := by
  have h1 : ω ^ (e1 + N * c1) = ω ^ e1 := by
    rw [pow_add, pow_mul, hω, one_pow, mul_one]
  have h2 : ω ^ (e2 + N * c2) = ω ^ e2 := by
    rw [pow_add, pow_mul, hω, one_pow, mul_one]
  rw [← h1, h, h2]

theorem sLoop_spec (a : List G) (ωstep : F) (log_n log_new_n i : ℕ) :
    ∀ fuel s elt (acc : G),
      sLoop a ωstep log_n log_new_n i fuel s elt acc =
        (elt * ωstep ^ fuel,
         acc + ∑ q ∈ Finset.range fuel,
           (elt * ωstep ^ q) • aget a ((i + (s + q) * 2 ^ log_new_n) % 2 ^ log_n)) := by
  intro fuel
  induction fuel with
  | zero =>
    intro s elt acc
    simp [sLoop]
  | succ fuel ih =>
    intro s elt acc
    rw [sLoop, ih (s + 1) (elt * ωstep)
      (acc + elt • aget a ((i + (s <<< log_new_n)) % (1 <<< log_n)))]
    refine Prod.ext ?_ ?_
    · show elt * ωstep * ωstep ^ fuel = elt * ωstep ^ (fuel + 1)
      rw [pow_succ]
      ring
    · show acc + elt • aget a ((i + (s <<< log_new_n)) % (1 <<< log_n)) + _ = acc + _
      rw [Finset.sum_range_succ']
      have hsum : ∀ q, (elt * ωstep * ωstep ^ q) •
            aget a ((i + (s + 1 + q) * 2 ^ log_new_n) % 2 ^ log_n) =
          (elt * ωstep ^ (q + 1)) •
            aget a ((i + (s + (q + 1)) * 2 ^ log_new_n) % 2 ^ log_n) := by
        intro q
        rw [pow_succ, show s + 1 + q = s + (q + 1) from by omega]
        ring_nf
      have hidx : (i + (s <<< log_new_n)) % (1 <<< log_n) =
          (i + (s + 0) * 2 ^ log_new_n) % 2 ^ log_n := by
        rw [Nat.shiftLeft_eq, Nat.shiftLeft_eq, one_mul, Nat.add_zero]
      rw [Finset.sum_congr rfl fun q _ => hsum q, hidx, pow_zero, mul_one]
      abel

theorem iLoop_spec (a : List G) (ωstep ωj : F) (P log_n lnn : ℕ) :
    ∀ fuel i elt,
      (iLoop a ωstep ωj P log_n lnn fuel i elt).length = fuel ∧
      ∀ r, r < fuel →
        aget (iLoop a ωstep ωj P log_n lnn fuel i elt) r =
          ∑ q ∈ Finset.range P,
            ((elt * (ωstep ^ P * ωj) ^ r) * ωstep ^ q) •
              aget a ((i + r + q * 2 ^ lnn) % 2 ^ log_n) := by
  intro fuel
  induction fuel with
  | zero => intro i elt; exact ⟨rfl, fun r hr => absurd hr (by omega)⟩
  | succ fuel ih =>
    intro i elt
    rw [iLoop, sLoop_spec]
    dsimp only
    refine ⟨by simp [(ih (i + 1) _).1], fun r hr => ?_⟩
    cases r with
    | zero =>
      rw [aget_cons_zero, zero_add]
      apply Finset.sum_congr rfl
      intro q hq
      rw [pow_zero, mul_one, Nat.zero_add, Nat.add_zero]
    | succ r =>
      rw [aget_cons_succ, (ih (i + 1) _).2 r (by omega)]
      apply Finset.sum_congr rfl
      intro q hq
      have hsc : elt * ωstep ^ P * ωj * (ωstep ^ P * ωj) ^ r =
          elt * (ωstep ^ P * ωj) ^ (r + 1) := by
        rw [pow_succ]
        ring
      rw [hsc, show i + 1 + r = i + (r + 1) from by omega]

theorem aget_map_range (n : ℕ) (f : ℕ → G) (i : ℕ) (hi : i < n) :
    aget ((List.range n).map f) i = f i := by
  simp [aget, List.getD_eq_getElem?_getD, List.getElem?_map, List.getElem?_range hi]

theorem getD_map_range {α : Type} (n : ℕ) (f : ℕ → α) (d : α) (i : ℕ) (hi : i < n) :
    ((List.range n).map f).getD i d = f i := by
  simp [List.getD_eq_getElem?_getD, List.getElem?_map, List.getElem?_range hi]

/-- `parallel_fft` computes the discrete Fourier transform with twiddle `omega`,
for a buffer of length `1 << log_n`, a primitive root of that order, and any
`log_cpus <= log_n` (the source's assertion). -/
theorem parallel_fft_dft (a : List G) (ω : F) (L p : ℕ) (hp : p ≤ L)
    (ha : a.length = 2 ^ L) (hω : 1 ≤ L → ω ^ 2 ^ (L - 1) = -1) (hω1 : ω ^ 2 ^ L = 1) :
    (parallel_fft a ω L p).length = 2 ^ L ∧
    ∀ i, i < 2 ^ L → aget (parallel_fft a ω L p) i = dft (2 ^ L) ω (aget a) i := by
  have h2L : (2 : ℕ) ^ L = 2 ^ p * 2 ^ (L - p) := by
    rw [← pow_add]
    congr 1
    omega
  have hppos : 0 < (2 : ℕ) ^ p := Nat.pos_pow_of_pos p (by omega)
  have hnpos : 0 < (2 : ℕ) ^ (L - p) := Nat.pos_pow_of_pos (L - p) (by omega)
  have hω2L : ω ^ (2 ^ p * 2 ^ (L - p)) = 1 := by rw [← h2L]; exact hω1
  simp only [parallel_fft, Nat.shiftLeft_eq, one_mul, Nat.shiftRight_eq_div_pow,
    Nat.and_pow_two_sub_one_eq_mod, ha]
  constructor
  · rw [List.length_map, List.length_range]
  intro idx hidx
  rw [aget_map_range _ _ idx hidx]
  have hj : idx % 2 ^ p < 2 ^ p := Nat.mod_lt idx hppos
  have hy : idx / 2 ^ p < 2 ^ (L - p) := by
    rw [Nat.div_lt_iff_lt_mul hppos, Nat.mul_comm, ← h2L]
    exact hidx
  rw [getD_map_range _ _ _ _ hj]
  obtain ⟨y, j, hyj, hjlt, hylt, hmodj, hdivy⟩ :
      ∃ y j, idx = 2 ^ p * y + j ∧ j < 2 ^ p ∧ y < 2 ^ (L - p) ∧
        idx % 2 ^ p = j ∧ idx / 2 ^ p = y :=
    ⟨idx / 2 ^ p, idx % 2 ^ p, (Nat.div_add_mod idx (2 ^ p)).symm, hj, hy, rfl, rfl⟩
  rw [hmodj, hdivy]
  have hIL := iLoop_spec a (ω ^ (j * 2 ^ (L - p))) (ω ^ j)
    (2 ^ p) L (L - p) (2 ^ (L - p)) 0 1
  have hsub : 1 ≤ L - p → (ω ^ 2 ^ p) ^ 2 ^ (L - p - 1) = -1 := by
    intro h1
    rw [← pow_mul]
    rw [show 2 ^ p * 2 ^ (L - p - 1) = 2 ^ (L - 1) from by rw [← pow_add]; congr 1; omega]
    exact hω (by omega)
  have hser := serial_fft_dft
    (iLoop a (ω ^ (j * 2 ^ (L - p))) (ω ^ j) (2 ^ p) L (L - p)
      (2 ^ (L - p)) 0 1)
    (ω ^ 2 ^ p) (L - p) hIL.1 hsub
  rw [hser.2 y hylt]
  unfold dft
  calc ∑ r ∈ Finset.range (2 ^ (L - p)),
        (ω ^ 2 ^ p) ^ (y * r) •
          aget (iLoop a (ω ^ (j * 2 ^ (L - p))) (ω ^ j) (2 ^ p) L
            (L - p) (2 ^ (L - p)) 0 1) r
      = ∑ r ∈ Finset.range (2 ^ (L - p)), ∑ q ∈ Finset.range (2 ^ p),
          (ω ^ (idx * (q * 2 ^ (L - p) + r))) • aget a (q * 2 ^ (L - p) + r) := by
        apply Finset.sum_congr rfl
        intro r hr
        rw [hIL.2 r (Finset.mem_range.mp hr), Finset.smul_sum]
        apply Finset.sum_congr rfl
        intro q hq
        have hlt : q * 2 ^ (L - p) + r < 2 ^ L := by
          have h1 : q + 1 ≤ 2 ^ p := by
            have := Finset.mem_range.mp hq
            omega
          have h2 : (q + 1) * 2 ^ (L - p) ≤ 2 ^ p * 2 ^ (L - p) :=
            Nat.mul_le_mul_right _ h1
          have h3 : (q + 1) * 2 ^ (L - p) = q * 2 ^ (L - p) + 2 ^ (L - p) := by ring
          have h4 := Finset.mem_range.mp hr
          omega
        rw [smul_smul, show (0 : ℕ) + r + q * 2 ^ (L - p) = q * 2 ^ (L - p) + r from by
          omega, Nat.mod_eq_of_lt hlt]
        congr 1
        simp only [one_mul, mul_pow, ← pow_mul, ← pow_add]
        apply pow_eq_pow_of_mod hω2L (y * q) (j * r)
        rw [hyj]
        ring
    _ = ∑ q ∈ Finset.range (2 ^ p), ∑ r ∈ Finset.range (2 ^ (L - p)),
          (ω ^ (idx * (q * 2 ^ (L - p) + r))) • aget a (q * 2 ^ (L - p) + r) :=
        Finset.sum_comm
    _ = ∑ k ∈ Finset.range (2 ^ p * 2 ^ (L - p)), (ω ^ (idx * k)) • aget a k :=
        (sum_range_prod_split (2 ^ p) (2 ^ (L - p))
          (fun k => (ω ^ (idx * k)) • aget a k)).symm
    _ = ∑ k ∈ Finset.range (2 ^ L), (ω ^ (idx * k)) • aget a k := by rw [← h2L]

/-! ### Characterisation of `from_coeffs` -/

theorem squareTimes_eq : ∀ (k : ℕ) (x : F), squareTimes x k = x ^ 2 ^ k := by
  intro k
  induction k with
  | zero => intro x; rw [squareTimes, pow_zero, pow_one]
  | succ k ih =>
    intro x
    rw [squareTimes, ih (x * x), show x * x = x ^ 2 from by ring, ← pow_mul,
      show 2 * 2 ^ k = 2 ^ (k + 1) from by rw [pow_succ]; ring]

theorem sizeLoop_eq (len S : ℕ) :
    ∀ fuel e, e ≤ Nat.clog 2 len → Nat.clog 2 len ≤ e + fuel → e < S →
      sizeLoop len S fuel (2 ^ e) e =
        if Nat.clog 2 len < S then some (2 ^ Nat.clog 2 len, Nat.clog 2 len)
        else none := by
  intro fuel
  induction fuel with
  | zero =>
    intro e he1 he2 he3
    have heq : e = Nat.clog 2 len := by omega
    have hle : len ≤ 2 ^ e := (Nat.le_pow_iff_clog_le (by omega)).mpr (by omega)
    rw [sizeLoop, if_neg (by omega), if_pos (by omega), heq]
  | succ fuel ih =>
    intro e he1 he2 he3
    by_cases hguard : 2 ^ e < len
    · have heclog : e < Nat.clog 2 len := by
        by_contra h
        push_neg at h
        have := (Nat.le_pow_iff_clog_le (by omega : 1 < 2)).mpr h
        omega
      rw [sizeLoop, if_pos hguard]
      by_cases hS2 : S ≤ e + 1
      · rw [if_pos hS2, if_neg (by omega)]
      · rw [if_neg hS2, show (2 : ℕ) ^ e * 2 = 2 ^ (e + 1) from (pow_succ 2 e)]
        exact ih (e + 1) (by omega) (by omega) (by omega)
    · have hle : Nat.clog 2 len ≤ e := (Nat.le_pow_iff_clog_le (by omega)).mp (by omega)
      have heq : e = Nat.clog 2 len := by omega
      rw [sizeLoop, if_neg hguard, if_pos (by omega), heq]

theorem clog_le_self (len : ℕ) : Nat.clog 2 len ≤ len :=
  (Nat.le_pow_iff_clog_le (by omega)).mp (le_of_lt (Nat.lt_two_pow len))

theorem len_le_pow_clog (len : ℕ) : len ≤ 2 ^ Nat.clog 2 len :=
  (Nat.le_pow_iff_clog_le (by omega)).mpr (le_refl _)

theorem resize_append {l : List G} {m : ℕ} (h : l.length ≤ m) (z : G) :
    resize l m z = l ++ List.replicate (m - l.length) z := by
  unfold resize
  by_cases hm : m ≤ l.length
  · have heq : m = l.length := le_antisymm hm h
    rw [if_pos hm, heq, Nat.sub_self, List.replicate_zero, List.append_nil,
      List.take_length]
  · rw [if_neg hm]

/-- Closed form of `from_coeffs`: with `exp := ⌈log₂ len⌉`, construction
succeeds exactly when `exp < S` (the loop raises the error as soon as `exp`
reaches `S`), producing the zero-padded buffer and the precomputed constants. -/
theorem from_coeffs_eq (S : ℕ) (hS : 1 ≤ S) (rou gen : F) (v : List G) :
    from_coeffs S rou gen v =
      if Nat.clog 2 v.length < S then
        Except.ok
          { coeffs := v ++ List.replicate (2 ^ Nat.clog 2 v.length - v.length) 0,
            exp := Nat.clog 2 v.length,
            omega := rou ^ 2 ^ (S - Nat.clog 2 v.length),
            omegainv := (rou ^ 2 ^ (S - Nat.clog 2 v.length))⁻¹,
            geninv := gen⁻¹,
            minv := ((2 ^ Nat.clog 2 v.length : ℕ) : F)⁻¹ }
      else Except.error SynthesisError.PolynomialDegreeTooLarge := by
  unfold from_coeffs
  have hloop := sizeLoop_eq v.length S v.length 0 (by omega)
    (by
      have h1 := clog_le_self v.length
      omega)
    (by omega)
  rw [pow_zero] at hloop
  rw [hloop]
  by_cases hc : Nat.clog 2 v.length < S
  · rw [if_pos hc, if_pos hc]
    dsimp only
    rw [squareTimes_eq, resize_append (len_le_pow_clog v.length)]
  · rw [if_neg hc, if_neg hc]

theorem from_coeffs_ok {S : ℕ} (hS : 1 ≤ S) {rou gen : F} {v : List G}
    {D : EvaluationDomain F G} (h : from_coeffs S rou gen v = Except.ok D) :
    Nat.clog 2 v.length < S ∧
    D.exp = Nat.clog 2 v.length ∧
    D.coeffs = v ++ List.replicate (2 ^ Nat.clog 2 v.length - v.length) 0 ∧
    D.omega = rou ^ 2 ^ (S - Nat.clog 2 v.length) ∧
    D.omegainv = (rou ^ 2 ^ (S - Nat.clog 2 v.length))⁻¹ ∧
    D.geninv = gen⁻¹ ∧
    D.minv = ((2 ^ Nat.clog 2 v.length : ℕ) : F)⁻¹ := by
  rw [from_coeffs_eq S hS rou gen v] at h
  by_cases hc : Nat.clog 2 v.length < S
  · rw [if_pos hc] at h
    injection h with h
    subst h
    exact ⟨hc, rfl, rfl, rfl, rfl, rfl, rfl⟩
  · rw [if_neg hc] at h
    exact absurd h (by simp)

theorem from_coeffs_ok_length {S : ℕ} (hS : 1 ≤ S) {rou gen : F} {v : List G}
    {D : EvaluationDomain F G} (h : from_coeffs S rou gen v = Except.ok D) :
    D.coeffs.length = 2 ^ Nat.clog 2 v.length := by
  rw [(from_coeffs_ok hS h).2.2.1, List.length_append, List.length_replicate]
  have := len_le_pow_clog v.length
  omega

/-! ### `distribute_powers` multiplies entry `i` by `g ^ i`, whatever the chunking -/

theorem aget_take {l : List G} {c k : ℕ} (h : k < c) : aget (l.take c) k = aget l k := by
  simp [aget, List.getD_eq_getElem?_getD, List.getElem?_take, h]

theorem aget_drop (l : List G) (c k : ℕ) : aget (l.drop c) k = aget l (c + k) := by
  simp [aget, List.getD_eq_getElem?_getD, List.getElem?_drop]

theorem applyPowers_spec (g : F) : ∀ (l : List G) (u : F),
    (applyPowers g u l).length = l.length ∧
    ∀ i, aget (applyPowers g u l) i = (u * g ^ i) • aget l i := by
  intro l
  induction l with
  | nil => intro u; exact ⟨rfl, fun i => by simp [applyPowers]⟩
  | cons x xs ih =>
    intro u
    refine ⟨by simp [applyPowers, (ih (u * g)).1], fun i => ?_⟩
    cases i with
    | zero => simp [applyPowers]
    | succ i =>
      show aget (applyPowers g (u * g) xs) i = _
      rw [(ih (u * g)).2 i, aget_cons_succ]
      have h : u * g * g ^ i = u * g ^ (i + 1) := by rw [pow_succ]; ring
      rw [h]

theorem distributeChunks_spec (g : F) (chunk : ℕ) (hchunk : 1 ≤ chunk) :
    ∀ n (l : List G), l.length ≤ n → ∀ i,
      (distributeChunks g chunk i l).length = l.length ∧
      ∀ k, aget (distributeChunks g chunk i l) k = g ^ (i * chunk + k) • aget l k := by
  intro n
  induction n with
  | zero =>
    intro l hl i
    have hnil : l = [] := List.eq_nil_of_length_eq_zero (by omega)
    subst hnil
    exact ⟨by simp [distributeChunks], fun k => by simp [distributeChunks]⟩
  | succ n ihn =>
    intro l hl i
    cases l with
    | nil => exact ⟨by simp [distributeChunks], fun k => by simp [distributeChunks]⟩
    | cons x xs =>
      rw [distributeChunks, dif_neg (by omega : ¬ chunk = 0)]
      have hAP := applyPowers_spec g ((x :: xs).take chunk) (g ^ (i * chunk))
      have hlen_take : ((x :: xs).take chunk).length = min chunk (x :: xs).length :=
        List.length_take chunk (x :: xs)
      have hdroplen : ((x :: xs).drop chunk).length = (x :: xs).length - chunk :=
        List.length_drop chunk (x :: xs)
      have hrec := ihn ((x :: xs).drop chunk) (by rw [hdroplen]; omega) (i + 1)
      constructor
      · rw [List.length_append, hAP.1, hrec.1, hlen_take, hdroplen]
        have hc : (x :: xs).length = xs.length + 1 := rfl
        omega
      · intro k
        by_cases hk : k < min chunk (x :: xs).length
        · rw [aget_append_left _ (by rw [hAP.1, hlen_take]; omega), hAP.2 k,
            aget_take (by omega), ← pow_add]
        · rw [aget_append_right _ (by rw [hAP.1, hlen_take]; omega), hAP.1, hlen_take]
          by_cases hcl : chunk ≤ (x :: xs).length
          · have hmin : min chunk (x :: xs).length = chunk := by omega
            rw [hmin, hrec.2 (k - chunk), aget_drop]
            have hidx : chunk + (k - chunk) = k := by omega
            have hexp : (i + 1) * chunk + (k - chunk) = i * chunk + k := by
              have h1 : (i + 1) * chunk = i * chunk + chunk := by ring
              omega
            rw [hidx, hexp]
          · have hmin : min chunk (x :: xs).length = (x :: xs).length := by omega
            rw [hmin]
            have hdrop_nil : (x :: xs).drop chunk = [] := by
              apply List.eq_nil_of_length_eq_zero
              omega
            rw [hdrop_nil]
            have hout : aget (x :: xs) k = 0 := aget_of_length_le (by omega)
            have hnil2 : distributeChunks g chunk (i + 1) ([] : List G) = [] := by
              simp [distributeChunks]
            rw [hnil2, aget_nil, hout, smul_zero]

/-! ### Buffer-level round trips -/

theorem aget_eq_getElem {a : List G} {i : ℕ} (h : i < a.length) : aget a i = a[i] := by
  simp [aget, List.getD_eq_getElem?_getD, List.getElem?_eq_getElem h]

theorem list_eq_of_aget {a b : List G} (hlen : a.length = b.length)
    (h : ∀ i, i < a.length → aget a i = aget b i) : a = b := by
  apply List.ext_getElem hlen
  intro i h1 h2
  rw [← aget_eq_getElem h1, ← aget_eq_getElem h2]
  exact h i h1

theorem aget_map_lt {l : List G} (f : G → G) {i : ℕ} (h : i < l.length) :
    aget (l.map f) i = f (aget l i) := by
  simp [aget, List.getD_eq_getElem?_getD, List.getElem?_map,
    List.getElem?_eq_getElem h]

theorem dft_congr {n : ℕ} {ω : F} {f g : ℕ → G} (h : ∀ j, j < n → f j = g j) (k : ℕ) :
    dft n ω f k = dft n ω g k := by
  unfold dft
  apply Finset.sum_congr rfl
  intro j hj
  rw [h j (Finset.mem_range.mp hj)]

theorem dft_smul {n : ℕ} {ω : F} (c : F) (f : ℕ → G) (k : ℕ) :
    dft n ω (fun j => c • f j) k = c • dft n ω f k := by
  unfold dft
  rw [Finset.smul_sum]
  apply Finset.sum_congr rfl
  intro j hj
  rw [smul_smul, smul_smul, mul_comm]

/-- The CPU dispatch of `best_fft` computes the DFT whichever branch runs. -/
theorem cpu_fft_dft (a : List G) (ω : F) (L lc : ℕ) (ha : a.length = 2 ^ L)
    (hω : 1 ≤ L → ω ^ 2 ^ (L - 1) = -1) (hω1 : ω ^ 2 ^ L = 1) :
    (cpu_fft a lc ω L).length = 2 ^ L ∧
    ∀ i, i < 2 ^ L → aget (cpu_fft a lc ω L) i = dft (2 ^ L) ω (aget a) i := by
  unfold cpu_fft
  by_cases h : L ≤ lc
  · rw [if_pos h]
    exact serial_fft_dft a ω L ha hω
  · rw [if_neg h]
    exact parallel_fft_dft a ω L lc (by omega) ha hω hω1

theorem two_ne_zero_of_neg_one (hne : (-1 : F) ≠ 1) : (2 : F) ≠ 0 := by
  intro h
  apply hne
  have h1 : (1 : F) + 1 = 0 := by rw [one_add_one_eq_two, h]
  exact neg_eq_of_add_eq_zero_left h1

theorem cast_two_pow_ne_zero {c : ℕ} (hne : (-1 : F) ≠ 1) :
    ((2 ^ c : ℕ) : F) ≠ 0 := by
  push_cast
  exact pow_ne_zero c (two_ne_zero_of_neg_one hne)

/-- Forward transform then inverse transform (CPU paths, with the `m_inv`
rescaling) restores the buffer. -/
theorem ifft_fft_list (b : List G) (ω : F) (L lc lc2 : ℕ) (hb : b.length = 2 ^ L)
    (hω1 : ω ^ 2 ^ L = 1) (hω2 : 1 ≤ L → ω ^ 2 ^ (L - 1) = -1) (hne : (-1 : F) ≠ 1) :
    (cpu_fft (cpu_fft b lc ω L) lc2 ω⁻¹ L).map
      (fun v => (((2 ^ L : ℕ) : F))⁻¹ • v) = b := by
  have hω0 : ω ≠ 0 := by
    intro h
    rw [h, zero_pow (by positivity : (2 : ℕ) ^ L ≠ 0)] at hω1
    exact one_ne_zero hω1.symm
  have hinj := pow_inj_of_primitive hω1 hω2 hne
  have hinvω1 : (ω⁻¹) ^ 2 ^ L = 1 := by rw [inv_pow, hω1, inv_one]
  have hinvω2 : 1 ≤ L → (ω⁻¹) ^ 2 ^ (L - 1) = -1 := by
    intro hL
    rw [inv_pow, hω2 hL, inv_neg, inv_one]
  have h1 := cpu_fft_dft b ω L lc hb hω2 hω1
  have h2 := cpu_fft_dft (cpu_fft b lc ω L) ω⁻¹ L lc2 h1.1 hinvω2 hinvω1
  apply list_eq_of_aget
  · rw [List.length_map, h2.1, hb]
  · intro i hi
    rw [List.length_map, h2.1] at hi
    rw [aget_map_lt _ (by rw [h2.1]; exact hi), h2.2 i hi,
      dft_congr (fun j hj => h1.2 j hj) i,
      dft_dft (by positivity) hω1 hinj (aget b) i hi, smul_smul]
    push_cast
    rw [inv_mul_cancel₀ (by
      exact pow_ne_zero L (two_ne_zero_of_neg_one hne)), one_smul]

/-- Inverse transform then forward transform (CPU paths) restores the buffer. -/
theorem fft_ifft_list (b : List G) (ω : F) (L lc lc2 : ℕ) (hb : b.length = 2 ^ L)
    (hω1 : ω ^ 2 ^ L = 1) (hω2 : 1 ≤ L → ω ^ 2 ^ (L - 1) = -1) (hne : (-1 : F) ≠ 1) :
    cpu_fft ((cpu_fft b lc ω⁻¹ L).map fun v => (((2 ^ L : ℕ) : F))⁻¹ • v) lc2 ω L
      = b := by
  have hω0 : ω ≠ 0 := by
    intro h
    rw [h, zero_pow (by positivity : (2 : ℕ) ^ L ≠ 0)] at hω1
    exact one_ne_zero hω1.symm
  have hinj := pow_inj_of_primitive hω1 hω2 hne
  have hinvinj : ∀ i, i < 2 ^ L → ∀ j, j < 2 ^ L → (ω⁻¹) ^ i = (ω⁻¹) ^ j → i = j := by
    intro i hi j hj hij
    apply hinj i hi j hj
    rw [inv_pow, inv_pow] at hij
    exact inv_injective hij
  have hinvω1 : (ω⁻¹) ^ 2 ^ L = 1 := by rw [inv_pow, hω1, inv_one]
  have hinvω2 : 1 ≤ L → (ω⁻¹) ^ 2 ^ (L - 1) = -1 := by
    intro hL
    rw [inv_pow, hω2 hL, inv_neg, inv_one]
  have h1 := cpu_fft_dft b ω⁻¹ L lc hb hinvω2 hinvω1
  have hmap : ((cpu_fft b lc ω⁻¹ L).map
      (fun v => (((2 ^ L : ℕ) : F))⁻¹ • v)).length = 2 ^ L := by
    rw [List.length_map, h1.1]
  have h2 := cpu_fft_dft ((cpu_fft b lc ω⁻¹ L).map fun v => (((2 ^ L : ℕ) : F))⁻¹ • v)
    ω L lc2 hmap hω2 hω1
  apply list_eq_of_aget
  · rw [h2.1, hb]
  · intro i hi
    rw [h2.1] at hi
    rw [h2.2 i hi,
      dft_congr (fun j hj => by
        rw [aget_map_lt _ (by rw [h1.1]; exact hj), h1.2 j hj]) i,
      dft_smul, dft_congr (fun j hj => rfl) i]
    have hdd := dft_dft (n := 2 ^ L) (ω := ω⁻¹) (by positivity) hinvω1 hinvinj
      (aget b) i hi
    rw [inv_inv] at hdd
    rw [hdd, smul_smul]
    push_cast
    rw [inv_mul_cancel₀ (by
      exact pow_ne_zero L (two_ne_zero_of_neg_one hne)), one_smul]

/-! ### Facts about domains produced by `from_coeffs` -/

theorem aget_padded (x : List G) (p : ℕ) (i : ℕ) :
    aget (x ++ List.replicate p (0 : G)) i = aget x i := by
  by_cases h : i < x.length
  · exact aget_append_left _ h
  · rw [aget_append_right _ (by omega), aget_replicate, aget_of_length_le (by omega)]

/-- The field invariants of a domain built by `from_coeffs`, assuming the field
contract for `root_of_unity()` (a primitive `2 ^ S`-th root of unity). -/
theorem domain_facts {S : ℕ} (hS : 1 ≤ S) {rou gen : F} (hrou1 : rou ^ 2 ^ S = 1)
    (hrou2 : rou ^ 2 ^ (S - 1) = -1) {v : List G} {D : EvaluationDomain F G}
    (hD : from_coeffs S rou gen v = Except.ok D) :
    D.coeffs.length = 2 ^ D.exp ∧
    D.omega ^ 2 ^ D.exp = 1 ∧
    (1 ≤ D.exp → D.omega ^ 2 ^ (D.exp - 1) = -1) ∧
    D.omegainv = D.omega⁻¹ ∧
    D.minv = ((2 ^ D.exp : ℕ) : F)⁻¹ ∧
    D.geninv = gen⁻¹ ∧
    D.exp < S := by
  obtain ⟨hcS, hexp, hcoeffs, homega, hoinv, hgeninv, hminv⟩ := from_coeffs_ok hS hD
  refine ⟨by rw [hexp]; exact from_coeffs_ok_length hS hD, ?_, ?_,
    by rw [hoinv, homega], by rw [hminv, hexp], hgeninv, by omega⟩
  · rw [homega, hexp, ← pow_mul,
      show 2 ^ (S - Nat.clog 2 v.length) * 2 ^ Nat.clog 2 v.length = 2 ^ S from by
        rw [← pow_add]; congr 1; omega, hrou1]
  · intro h1
    rw [hexp] at h1
    rw [homega, hexp, ← pow_mul,
      show 2 ^ (S - Nat.clog 2 v.length) * 2 ^ (Nat.clog 2 v.length - 1) = 2 ^ (S - 1)
        from by rw [← pow_add]; congr 1; omega, hrou2]

/-- `z(multiplicative_generator())` is nonzero on every domain `from_coeffs`
accepts, because the generator has order `2 ^ S * odd > 2 ^ (S - 1) ≥ m`. -/
theorem z_gen_ne_zero {S : ℕ} (hS : 1 ≤ S) {rou gen : F} {v : List G}
    {D : EvaluationDomain F G} (hgen : gen ^ 2 ^ (S - 1) ≠ 1)
    (hD : from_coeffs S rou gen v = Except.ok D) :
    D.z gen ≠ 0 := by
  obtain ⟨hcS, hexp, hcoeffs, _, _, _, _⟩ := from_coeffs_ok hS hD
  have hlen := from_coeffs_ok_length hS hD
  intro h
  apply hgen
  have hm : gen ^ D.coeffs.length = 1 := by
    have := sub_eq_zero.mp h
    unfold EvaluationDomain.z at h
    rw [sub_eq_zero] at h
    exact h
  rw [hlen] at hm
  calc gen ^ 2 ^ (S - 1)
      = (gen ^ 2 ^ Nat.clog 2 v.length) ^ 2 ^ (S - 1 - Nat.clog 2 v.length) := by
        rw [← pow_mul, ← pow_add]
        congr 1
        congr 1
        omega
    _ = 1 := by rw [hm, one_pow]

/-! ### The claims -/

/-- C6: `distribute_powers(worker, g)` multiplies `coeffs[i]` by `g ^ i` at
every index, for every field element `g` and every chunk size the worker may
choose (each chunk seeds its running power with `g ^ (i0)` by exponentiation,
so the result does not depend on the partition). -/
theorem claim_C6_distribute_powers (D : EvaluationDomain F G) (g : F) (chunk : ℕ)
    (hchunk : 1 ≤ chunk) :
    (D.distribute_powers chunk g).coeffs.length = D.coeffs.length ∧
    ∀ i, i < D.coeffs.length →
      aget (D.distribute_powers chunk g).coeffs i = g ^ i • aget D.coeffs i := by
  have h := distributeChunks_spec g chunk hchunk D.coeffs.length D.coeffs (le_refl _) 0
  refine ⟨h.1, fun i hi => ?_⟩
  rw [show (D.distribute_powers chunk g).coeffs = distributeChunks g chunk 0 D.coeffs
    from rfl, h.2 i, Nat.zero_mul, Nat.zero_add]

/-- C8: `z(tau)` returns `tau ^ m - 1` for the domain size `m`; consequently
`z(omega ^ k) = 0` for every integer `k`, and `z(g) ≠ 0` for the
multiplicative generator `g` of `F*` (whose order exceeds `2 ^ (S - 1)`). -/
theorem claim_C8_z (S : ℕ) (hS : 1 ≤ S) (rou gen : F)
    (hrou1 : rou ^ 2 ^ S = 1) (hgen : gen ^ 2 ^ (S - 1) ≠ 1)
    (v : List G) (D : EvaluationDomain F G)
    (hD : from_coeffs S rou gen v = Except.ok D) :
    (∀ tau : F, D.z tau = tau ^ D.coeffs.length - 1) ∧
    (∀ k : ℤ, D.z (D.omega ^ k) = 0) ∧
    D.z gen ≠ 0 := by
  obtain ⟨hcS, hexp, hcoeffs, homega, _, _, _⟩ := from_coeffs_ok hS hD
  have hlen := from_coeffs_ok_length hS hD
  have hωm : D.omega ^ D.coeffs.length = 1 := by
    rw [homega, hlen, ← pow_mul,
      show 2 ^ (S - Nat.clog 2 v.length) * 2 ^ Nat.clog 2 v.length = 2 ^ S from by
        rw [← pow_add]; congr 1; omega, hrou1]
  refine ⟨fun tau => rfl, fun k => ?_, z_gen_ne_zero hS hgen hD⟩
  unfold EvaluationDomain.z
  rw [sub_eq_zero]
  cases k with
  | ofNat m =>
    rw [Int.ofNat_eq_coe, zpow_natCast, ← pow_mul, mul_comm, pow_mul, hωm, one_pow]
  | negSucc m =>
    rw [zpow_negSucc, inv_pow, ← pow_mul, mul_comm, pow_mul, hωm, one_pow, inv_one]

/-- C7: `divide_by_z_on_coset(worker)` multiplies every coefficient by the
single constant `(g ^ m - 1)⁻¹`; that inverse exists because `z(g)` is
nonzero. -/
theorem claim_C7_divide_by_z_on_coset (S : ℕ) (hS : 1 ≤ S) (rou gen : F)
    (hgen : gen ^ 2 ^ (S - 1) ≠ 1) (v : List G) (D : EvaluationDomain F G)
    (hD : from_coeffs S rou gen v = Except.ok D) :
    D.z gen ≠ 0 ∧ D.z gen * (D.z gen)⁻¹ = 1 ∧
    (D.divide_by_z_on_coset gen).coeffs.length = D.coeffs.length ∧
    ∀ i, i < D.coeffs.length →
      aget (D.divide_by_z_on_coset gen).coeffs i =
        (gen ^ D.coeffs.length - 1)⁻¹ • aget D.coeffs i := by
  have hz := z_gen_ne_zero hS hgen hD
  have hmap : (D.divide_by_z_on_coset gen).coeffs =
      D.coeffs.map fun w => (D.z gen)⁻¹ • w := rfl
  refine ⟨hz, mul_inv_cancel₀ hz, ?_, fun i hi => ?_⟩
  · rw [hmap, List.length_map]
  · rw [hmap, aget_map_lt _ hi]
    rfl

/-- C9: a successful `from_coeffs` returns a buffer of length
`2 ^ ⌈log₂ n⌉` whose first `n` entries are the input and whose tail is zero
padding; `exp` is the least exponent with `2 ^ exp ≥ n`; `n = 0` gives
`exp = 0`, `m = 1` and a single zero, and `n = 1` gives `m = 1` with
`exp = 0`. -/
theorem claim_C9_from_coeffs (S : ℕ) (hS : 1 ≤ S) (rou gen : F)
    (v : List G) (D : EvaluationDomain F G)
    (hD : from_coeffs S rou gen v = Except.ok D) :
    D.coeffs.length = 2 ^ Nat.clog 2 v.length ∧
    D.coeffs = v ++ List.replicate (2 ^ Nat.clog 2 v.length - v.length) 0 ∧
    D.exp = Nat.clog 2 v.length ∧
    v.length ≤ 2 ^ D.exp ∧
    (∀ e, v.length ≤ 2 ^ e → D.exp ≤ e) ∧
    (v.length = 0 → D.exp = 0 ∧ D.coeffs = [0]) ∧
    (v.length = 1 → D.exp = 0 ∧ D.coeffs.length = 1) := by
  obtain ⟨hcS, hexp, hcoeffs, _, _, _, _⟩ := from_coeffs_ok hS hD
  have hlen := from_coeffs_ok_length hS hD
  refine ⟨hlen, hcoeffs, hexp, ?_, ?_, ?_, ?_⟩
  · rw [hexp]
    exact len_le_pow_clog v.length
  · intro e he
    rw [hexp]
    exact (Nat.le_pow_iff_clog_le (by omega)).mp he
  · intro h0
    have hv : v = [] := List.eq_nil_of_length_eq_zero h0
    subst hv
    have hc0 : Nat.clog 2 (List.length ([] : List G)) = 0 := Nat.clog_zero_right 2
    refine ⟨by rw [hexp, hc0], ?_⟩
    rw [hcoeffs, hc0]
    rfl
  · intro h1
    have hc0 : Nat.clog 2 v.length = 0 := by rw [h1]; exact Nat.clog_one_right 2
    exact ⟨by rw [hexp, hc0], by rw [hlen, hc0]; norm_num⟩

/-- C3 (counterexample): the claim asserts that an input of length `2 ^ S` is
accepted (`exp ≤ S` succeeding).  In the code the loop raises
`PolynomialDegreeTooLarge` as soon as `exp` reaches `S` (`if exp >= E::Fr::S`),
so with `S = 4` a vector of length `2 ^ 4 = 16` is rejected. -/
theorem claim_C3_counterexample :
    from_coeffs 4 (3 : ZMod 17) 3 (List.replicate (2 ^ 4) (0 : ZMod 17)) =
      Except.error SynthesisError.PolynomialDegreeTooLarge := rfl

/-- C3 (amended): `from_coeffs` succeeds exactly when the smallest `exp` with
`2 ^ exp ≥ coeffs.len()` satisfies `exp < S`, and fails with
`PolynomialDegreeTooLarge` when `exp ≥ S`; in particular length `2 ^ (S - 1)`
is accepted and length `2 ^ (S - 1) + 1` fails with
`PolynomialDegreeTooLarge`. -/
theorem claim_C3_from_coeffs_amended (S : ℕ) (hS : 1 ≤ S) (rou gen : F) (v : List G) :
    ((∃ D, from_coeffs S rou gen v = Except.ok D) ↔ Nat.clog 2 v.length < S) ∧
    (S ≤ Nat.clog 2 v.length →
      from_coeffs S rou gen v = Except.error SynthesisError.PolynomialDegreeTooLarge) ∧
    (∃ D, from_coeffs S rou gen (List.replicate (2 ^ (S - 1)) (0 : G)) = Except.ok D) ∧
    from_coeffs S rou gen (List.replicate (2 ^ (S - 1) + 1) (0 : G)) =
      Except.error SynthesisError.PolynomialDegreeTooLarge := by
  have hkey : ∀ w : List G, ¬ Nat.clog 2 w.length < S →
      from_coeffs S rou gen w = Except.error SynthesisError.PolynomialDegreeTooLarge := by
    intro w hw
    rw [from_coeffs_eq S hS rou gen w, if_neg hw]
  refine ⟨⟨?_, ?_⟩, fun h => hkey v (by omega), ?_, ?_⟩
  · rintro ⟨D, hD⟩
    by_contra hc
    rw [hkey v hc] at hD
    exact absurd hD (by simp)
  · intro hc
    rw [from_coeffs_eq S hS rou gen v, if_pos hc]
    exact ⟨_, rfl⟩
  · rw [from_coeffs_eq S hS rou gen _, if_pos (by
      rw [List.length_replicate, Nat.clog_pow 2 (S - 1) (by omega)]
      omega)]
    exact ⟨_, rfl⟩
  · apply hkey
    rw [List.length_replicate]
    have h1 : ¬ (2 ^ (S - 1) + 1 ≤ 2 ^ (S - 1)) := by omega
    have h2 : ¬ Nat.clog 2 (2 ^ (S - 1) + 1) ≤ S - 1 := by
      intro h
      exact h1 ((Nat.le_pow_iff_clog_le (by omega)).mpr h)
    omega

/-- C10 (counterexample): the claim asserts the accelerator is never invoked
for Point-valued domains.  `best_fft` attempts `kern.with(|k| gpu_fft(..))`
whenever a handle is present, without inspecting the element type, so a
Point-valued buffer with a live kernel does invoke the accelerator. -/
theorem claim_C10_counterexample :
    (best_fft (some ⟨true, fun a _ _ => a⟩)
      [(show Point (ZMod 17) from (5 : ZMod 17))] 0 (1 : ZMod 17) 0).2 = true := rfl

/-- C10 (amended): the dispatch never inspects the group variant: for every
element type — the curve-point variant `Point P` included — `best_fft` invokes
the accelerator kernel exactly when a handle is present (and `gpu_fft` hands it
the buffer reinterpreted as field elements); only the callers keep the
accelerator path to Scalar-valued buffers. -/
theorem claim_C10_best_fft_dispatch {P : Type} [AddCommGroup P] [Module F P]
    (kern : Option (FFTKernelModel F (Point P))) (a : List (Point P)) (lc : ℕ)
    (ω : F) (L : ℕ) :
    (best_fft kern a lc ω L).2 = kern.isSome := by
  cases kern with
  | none => rfl
  | some k =>
    by_cases h : k.ok
    · simp [best_fft, h]
    · simp [best_fft, h]

/-- C2: `parallel_fft(v, worker, omega, log_n, log_cpus)` leaves the buffer
elementwise identical to `serial_fft(v, omega, log_n)`, for every buffer of
length `2 ^ log_n`, every root of unity `omega` of order `2 ^ log_n` and every
`0 ≤ log_cpus ≤ log_n`. -/
theorem claim_C2_parallel_eq_serial (v : List G) (ω : F) (log_n log_cpus : ℕ)
    (hlen : v.length = 2 ^ log_n) (hcpus : log_cpus ≤ log_n)
    (hω1 : ω ^ 2 ^ log_n = 1) (hω2 : 1 ≤ log_n → ω ^ 2 ^ (log_n - 1) = -1) :
    parallel_fft v ω log_n log_cpus = serial_fft v ω log_n := by
  have hp := parallel_fft_dft v ω log_n log_cpus hcpus hlen hω2 hω1
  have hs := serial_fft_dft v ω log_n hlen hω2
  apply list_eq_of_aget (by rw [hp.1, hs.1])
  intro i hi
  rw [hp.1] at hi
  rw [hp.2 i hi, hs.2 i hi]

/-! ### Round trips at the domain level -/

theorem fft_then_ifft_coeffs (D : EvaluationDomain F G) (lc1 lc2 : ℕ)
    (hlen : D.coeffs.length = 2 ^ D.exp)
    (hω1 : D.omega ^ 2 ^ D.exp = 1) (hω2 : 1 ≤ D.exp → D.omega ^ 2 ^ (D.exp - 1) = -1)
    (hoinv : D.omegainv = D.omega⁻¹) (hminv : D.minv = ((2 ^ D.exp : ℕ) : F)⁻¹)
    (hne : (-1 : F) ≠ 1) :
    ((D.fft none lc1).ifft none lc2).coeffs = D.coeffs := by
  have h := ifft_fft_list D.coeffs D.omega D.exp lc1 lc2 hlen hω1 hω2 hne
  show ((best_fft none (best_fft none D.coeffs lc1 D.omega D.exp).1 lc2
      D.omegainv D.exp).1.map fun w => D.minv • w) = D.coeffs
  show ((cpu_fft (cpu_fft D.coeffs lc1 D.omega D.exp) lc2
      D.omegainv D.exp).map fun w => D.minv • w) = D.coeffs
  rw [hoinv, hminv]
  exact h

theorem ifft_then_fft_coeffs (D : EvaluationDomain F G) (lc1 lc2 : ℕ)
    (hlen : D.coeffs.length = 2 ^ D.exp)
    (hω1 : D.omega ^ 2 ^ D.exp = 1) (hω2 : 1 ≤ D.exp → D.omega ^ 2 ^ (D.exp - 1) = -1)
    (hoinv : D.omegainv = D.omega⁻¹) (hminv : D.minv = ((2 ^ D.exp : ℕ) : F)⁻¹)
    (hne : (-1 : F) ≠ 1) :
    ((D.ifft none lc1).fft none lc2).coeffs = D.coeffs := by
  have h := fft_ifft_list D.coeffs D.omega D.exp lc1 lc2 hlen hω1 hω2 hne
  show cpu_fft ((cpu_fft D.coeffs lc1 D.omegainv D.exp).map fun w => D.minv • w)
      lc2 D.omega D.exp = D.coeffs
  rw [hoinv, hminv]
  exact h

/-- C1: on every domain built by `from_coeffs`, `ifft(fft(x)) = x` and
`fft(ifft(x)) = x`, bit-exact, with both transforms on the CPU path
(no accelerator handle) and for any worker parallelism. -/
theorem claim_C1_fft_ifft_roundtrip (S : ℕ) (hS : 1 ≤ S) (rou gen : F)
    (hrou1 : rou ^ 2 ^ S = 1) (hrou2 : rou ^ 2 ^ (S - 1) = -1) (hne : (-1 : F) ≠ 1)
    (v : List G) (D : EvaluationDomain F G)
    (hD : from_coeffs S rou gen v = Except.ok D) (lc1 lc2 : ℕ) :
    ((D.fft none lc1).ifft none lc2).coeffs = D.coeffs ∧
    ((D.ifft none lc1).fft none lc2).coeffs = D.coeffs := by
  obtain ⟨hlen, hω1, hω2, hoinv, hminv, _, _⟩ := domain_facts hS hrou1 hrou2 hD
  exact ⟨fft_then_ifft_coeffs D lc1 lc2 hlen hω1 hω2 hoinv hminv hne,
    ifft_then_fft_coeffs D lc1 lc2 hlen hω1 hω2 hoinv hminv hne⟩

theorem distribute_cancel_lists (u w : F) (h : w * u = 1) {c1 c2 : ℕ}
    (h1 : 1 ≤ c1) (h2 : 1 ≤ c2) (l : List G) :
    distributeChunks w c2 0 (distributeChunks u c1 0 l) = l := by
  have s1 := distributeChunks_spec u c1 h1 l.length l (le_refl _) 0
  have s2 := distributeChunks_spec w c2 h2 (distributeChunks u c1 0 l).length
    (distributeChunks u c1 0 l) (le_refl _) 0
  apply list_eq_of_aget (by rw [s2.1, s1.1])
  intro i hi
  rw [s2.2 i, s1.2 i, smul_smul]
  simp only [Nat.zero_mul, Nat.zero_add]
  rw [← mul_pow, h, one_pow, one_smul]

/-- C5: the coset transforms round-trip on every domain built by
`from_coeffs`: `icoset_fft(coset_fft(D)) = D` and `coset_fft(icoset_fft(D)) = D`
as coefficient sequences (CPU path, any worker parallelism and chunking). -/
theorem claim_C5_coset_roundtrip (S : ℕ) (hS : 1 ≤ S) (rou gen : F)
    (hrou1 : rou ^ 2 ^ S = 1) (hrou2 : rou ^ 2 ^ (S - 1) = -1) (hne : (-1 : F) ≠ 1)
    (hgen0 : gen ≠ 0) (v : List G) (D : EvaluationDomain F G)
    (hD : from_coeffs S rou gen v = Except.ok D) (lc1 lc2 ch1 ch2 : ℕ)
    (hch1 : 1 ≤ ch1) (hch2 : 1 ≤ ch2) :
    ((D.coset_fft gen none lc1 ch1).icoset_fft none lc2 ch2).coeffs = D.coeffs ∧
    ((D.icoset_fft none lc1 ch1).coset_fft gen none lc2 ch2).coeffs = D.coeffs := by
  obtain ⟨hlen, hω1, hω2, hoinv, hminv, hgeninv, _⟩ := domain_facts hS hrou1 hrou2 hD
  have hdist_len : ∀ (g : F) (c : ℕ), 1 ≤ c →
      (distributeChunks g c 0 D.coeffs).length = D.coeffs.length := by
    intro g c hc
    exact (distributeChunks_spec g c hc D.coeffs.length D.coeffs (le_refl _) 0).1
  constructor
  · -- icoset_fft (coset_fft D)
    show (distributeChunks D.geninv ch2 0
        (((D.distribute_powers ch1 gen).fft none lc1).ifft none lc2).coeffs) = D.coeffs
    have hrt : (((D.distribute_powers ch1 gen).fft none lc1).ifft none lc2).coeffs =
        (D.distribute_powers ch1 gen).coeffs := by
      apply fft_then_ifft_coeffs (D.distribute_powers ch1 gen) lc1 lc2
      · show (distributeChunks gen ch1 0 D.coeffs).length = 2 ^ D.exp
        rw [hdist_len gen ch1 hch1, hlen]
      · exact hω1
      · exact hω2
      · exact hoinv
      · exact hminv
      · exact hne
    rw [hrt]
    show distributeChunks D.geninv ch2 0 (distributeChunks gen ch1 0 D.coeffs) = D.coeffs
    rw [hgeninv]
    exact distribute_cancel_lists gen gen⁻¹ (inv_mul_cancel₀ hgen0) hch1 hch2 D.coeffs
  · -- coset_fft (icoset_fft D)
    show cpu_fft (distributeChunks gen ch2 0 (distributeChunks D.geninv ch1 0
        ((cpu_fft D.coeffs lc1 D.omegainv D.exp).map fun w => D.minv • w)))
        lc2 D.omega D.exp = D.coeffs
    rw [hgeninv,
      distribute_cancel_lists gen⁻¹ gen (mul_inv_cancel₀ hgen0) hch1 hch2 _,
      hoinv, hminv]
    exact fft_ifft_list D.coeffs D.omega D.exp lc1 lc2 hlen hω1 hω2 hne

/-! ### Convolution through the evaluation form -/

theorem aget_zipWith_smul (xs : List G) (ys : List F) {i : ℕ}
    (hx : i < xs.length) (hy : i < ys.length) :
    aget (List.zipWith (fun x y => y • x) xs ys) i = aget ys i • aget xs i := by
  rw [aget_eq_getElem (by rw [List.length_zipWith]; omega), List.getElem_zipWith,
    aget_eq_getElem hx, aget_eq_getElem hy]

/-- The inverse DFT of the pointwise product of two DFTs is `n` times the
(acyclic) convolution, provided the two coefficient sequences vanish from `la`
and `lb` on with `la + lb ≤ n + 1` (no wrap-around). -/
theorem dft_inv_prod {n : ℕ} {ω : F} (hn : 0 < n) (hω0 : ω ≠ 0) (hω1 : ω ^ n = 1)
    (hinj : ∀ i, i < n → ∀ j, j < n → ω ^ i = ω ^ j → i = j)
    (f : ℕ → G) (g : ℕ → F) (la lb : ℕ)
    (hf : ∀ i, la ≤ i → f i = 0) (hg : ∀ i, lb ≤ i → g i = 0)
    (hlab : la + lb ≤ n + 1) (k : ℕ) (hk : k < n) :
    dft n ω⁻¹ (fun t => dft n ω g t • dft n ω f t) k =
      (n : F) • ∑ i ∈ Finset.range (k + 1), g i • f (k - i) := by
  have hωk : ω⁻¹ ^ k * ω ^ k = 1 := by
    rw [← mul_pow, inv_mul_cancel₀ hω0, one_pow]
  calc dft n ω⁻¹ (fun t => dft n ω g t • dft n ω f t) k
      = ∑ t ∈ Finset.range n, ∑ i ∈ Finset.range n, ∑ j ∈ Finset.range n,
          ((ω⁻¹ ^ k * ω ^ i * ω ^ j) ^ t) • (g i • f j) := by
        unfold dft
        apply Finset.sum_congr rfl
        intro t ht
        dsimp only
        rw [Finset.sum_smul, Finset.smul_sum]
        apply Finset.sum_congr rfl
        intro i hi
        rw [Finset.smul_sum, Finset.smul_sum]
        apply Finset.sum_congr rfl
        intro j hj
        simp only [smul_smul, smul_eq_mul]
        congr 1
        ring
    _ = ∑ i ∈ Finset.range n, ∑ j ∈ Finset.range n, ∑ t ∈ Finset.range n,
          ((ω⁻¹ ^ k * ω ^ i * ω ^ j) ^ t) • (g i • f j) := by
        rw [Finset.sum_comm]
        exact Finset.sum_congr rfl fun i _ => Finset.sum_comm
    _ = ∑ i ∈ Finset.range n, ∑ j ∈ Finset.range n,
          (∑ t ∈ Finset.range n, (ω⁻¹ ^ k * ω ^ i * ω ^ j) ^ t) • (g i • f j) := by
        refine Finset.sum_congr rfl fun i _ => Finset.sum_congr rfl fun j _ => ?_
        rw [Finset.sum_smul]
    _ = ∑ i ∈ Finset.range n, ∑ j ∈ Finset.range n,
          (if i + j = k then (n : F) • (g i • f j) else 0) := by
        refine Finset.sum_congr rfl fun i hi => Finset.sum_congr rfl fun j hj => ?_
        rw [Finset.mem_range] at hi hj
        by_cases hijk : i + j = k
        · rw [if_pos hijk]
          have hζ : ω⁻¹ ^ k * ω ^ i * ω ^ j = 1 := by
            rw [mul_assoc, ← pow_add, hijk]
            exact hωk
          rw [hζ]
          simp [Finset.sum_const, Finset.card_range]
        · rw [if_neg hijk]
          by_cases hζ : ω⁻¹ ^ k * ω ^ i * ω ^ j = 1
          · have h2 : ω⁻¹ ^ k * ω ^ (i + j) = 1 := by
              rw [pow_add, ← mul_assoc]
              exact hζ
            have hij : ω ^ (i + j) = ω ^ k := by
              calc ω ^ (i + j) = (ω ^ k * ω⁻¹ ^ k) * ω ^ (i + j) := by
                    rw [mul_comm (ω ^ k), hωk, one_mul]
                _ = ω ^ k * (ω⁻¹ ^ k * ω ^ (i + j)) := by ring
                _ = ω ^ k := by rw [h2, mul_one]
            have hr : ω ^ ((i + j) % n) = ω ^ k := by
              rw [← hij]
              exact pow_eq_pow_of_mod hω1 ((i + j) / n) 0 (by
                have := Nat.div_add_mod (i + j) n
                omega)
            have hrk : (i + j) % n = k := hinj _ (Nat.mod_lt _ hn) k hk hr
            have hq : i + j = k + n := by
              have hd := Nat.div_add_mod (i + j) n
              rw [hrk] at hd
              obtain ⟨q, hqd⟩ : ∃ q, (i + j) / n = q := ⟨_, rfl⟩
              rw [hqd] at hd
              rcases q with _ | _ | q
              · omega
              · omega
              · have hexp : n * (q + 1 + 1) = n * q + n + n := by ring
                omega
            have hz : g i • f j = 0 := by
              by_cases hgi : lb ≤ i
              · rw [hg i hgi, zero_smul]
              · rw [hf j (by omega), smul_zero]
            rw [hz, smul_zero]
          · have h1 : (ω⁻¹) ^ n = 1 := by rw [inv_pow, hω1, inv_one]
            have hζn : (ω⁻¹ ^ k * ω ^ i * ω ^ j) ^ n = 1 := by
              calc (ω⁻¹ ^ k * ω ^ i * ω ^ j) ^ n
                  = (ω⁻¹ ^ n) ^ k * (ω ^ n) ^ i * (ω ^ n) ^ j := by ring
                _ = 1 := by rw [h1, hω1, one_pow, one_pow, one_pow, mul_one, mul_one]
            rw [geom_sum_eq_zero n hζn hζ, zero_smul]
    _ = ∑ i ∈ Finset.range n, (if i ≤ k then (n : F) • (g i • f (k - i)) else 0) := by
        apply Finset.sum_congr rfl
        intro i hi
        rw [Finset.mem_range] at hi
        by_cases hik : i ≤ k
        · rw [if_pos hik,
            Finset.sum_eq_single_of_mem (k - i) (Finset.mem_range.mpr (by omega))
              (fun j hj hjne => if_neg (by omega))]
          rw [if_pos (by omega)]
        · rw [if_neg hik]
          apply Finset.sum_eq_zero
          intro j hj
          rw [if_neg (by omega)]
    _ = ∑ i ∈ Finset.range (k + 1), (n : F) • (g i • f (k - i)) := by
        rw [← Finset.sum_subset (Finset.range_subset.mpr (by omega : k + 1 ≤ n))
          (fun i hi hni => by
            simp only [Finset.mem_range, not_lt] at hni
            exact if_neg (by omega))]
        apply Finset.sum_congr rfl
        intro i hi
        rw [Finset.mem_range] at hi
        rw [if_pos (by omega)]
    _ = (n : F) • ∑ i ∈ Finset.range (k + 1), g i • f (k - i) := by
        rw [Finset.smul_sum]

/-- C4: for polynomials `a` (group-valued) and `b` (scalar), padded to a common
length and loaded into domains of size `m = 2 ^ exp` with
`deg(a) + deg(b) < m`, the pipeline `fft a; fft b; a.mul_assign(b); ifft a`
produces in its first `deg(a) + deg(b) + 1` slots exactly the schoolbook
convolution of `a` and `b` (CPU path, any worker parallelism). -/
theorem claim_C4_convolution (S : ℕ) (hS : 1 ≤ S) (rou gen : F)
    (hrou1 : rou ^ 2 ^ S = 1) (hrou2 : rou ^ 2 ^ (S - 1) = -1) (hne : (-1 : F) ≠ 1)
    (a : List G) (b : List F) (hab : a.length = b.length)
    (A : EvaluationDomain F G) (B : EvaluationDomain F (Scalar F))
    (hA : from_coeffs S rou gen a = Except.ok A)
    (hB : from_coeffs S rou gen b = Except.ok B)
    (la lb : ℕ)
    (hva : ∀ i, la ≤ i → aget a i = 0) (hvb : ∀ i, lb ≤ i → aget b i = 0)
    (hdeg : la + lb ≤ 2 ^ A.exp + 1) (lc1 lc2 lc3 : ℕ) :
    ∀ k, k < la + lb - 1 →
      aget (((A.fft none lc1).mul_assign (B.fft none lc2)).ifft none lc3).coeffs k =
        ∑ i ∈ Finset.range (k + 1), aget b i • aget a (k - i) := by
  obtain ⟨hlenA, hω1, hω2, hoinv, hminv, _, _⟩ := domain_facts hS hrou1 hrou2 hA
  obtain ⟨_, hexpA, hcoA, homA, _, _, _⟩ := from_coeffs_ok hS hA
  obtain ⟨_, hexpB, hcoB, homB, _, _, _⟩ := from_coeffs_ok hS hB
  have hBo : B.omega = A.omega := by rw [homB, homA, hab]
  have hBe : B.exp = A.exp := by rw [hexpB, hexpA, hab]
  have hlenB : B.coeffs.length = 2 ^ A.exp := by
    rw [from_coeffs_ok_length hS hB, ← hab, ← hexpA]
  have hω0 : A.omega ≠ 0 := by
    intro h
    rw [h, zero_pow (by positivity : (2 : ℕ) ^ A.exp ≠ 0)] at hω1
    exact one_ne_zero hω1.symm
  have hinj := pow_inj_of_primitive hω1 hω2 hne
  have hinvω1 : (A.omega⁻¹) ^ 2 ^ A.exp = 1 := by rw [inv_pow, hω1, inv_one]
  have hinvω2 : 1 ≤ A.exp → (A.omega⁻¹) ^ 2 ^ (A.exp - 1) = -1 := by
    intro hL
    rw [inv_pow, hω2 hL, inv_neg, inv_one]
  have hR : (((A.fft none lc1).mul_assign (B.fft none lc2)).ifft none lc3).coeffs =
      (cpu_fft (List.zipWith (fun x y => y • x) (cpu_fft A.coeffs lc1 A.omega A.exp)
        (cpu_fft B.coeffs lc2 B.omega B.exp)) lc3 A.omegainv A.exp).map
        (fun v => A.minv • v) := rfl
  rw [hBo, hBe] at hR
  have hAd := cpu_fft_dft A.coeffs A.omega A.exp lc1 hlenA hω2 hω1
  have hBd := cpu_fft_dft B.coeffs A.omega A.exp lc2 hlenB hω2 hω1
  have hMlen : (List.zipWith (fun x y => y • x) (cpu_fft A.coeffs lc1 A.omega A.exp)
      (cpu_fft B.coeffs lc2 A.omega A.exp)).length = 2 ^ A.exp := by
    simp [List.length_zipWith, hAd.1, hBd.1]
  have hMd := cpu_fft_dft (List.zipWith (fun x y => y • x)
    (cpu_fft A.coeffs lc1 A.omega A.exp) (cpu_fft B.coeffs lc2 A.omega A.exp))
    A.omega⁻¹ A.exp lc3 hMlen hinvω2 hinvω1
  intro k hk
  have hkn : k < 2 ^ A.exp := by omega
  have hint : ∀ t, t < 2 ^ A.exp →
      aget (List.zipWith (fun x y => y • x) (cpu_fft A.coeffs lc1 A.omega A.exp)
        (cpu_fft B.coeffs lc2 A.omega A.exp)) t =
      dft (2 ^ A.exp) A.omega (aget b) t • dft (2 ^ A.exp) A.omega (aget a) t := by
    intro t ht
    rw [aget_zipWith_smul _ _ (by rw [hAd.1]; exact ht) (by rw [hBd.1]; exact ht),
      hAd.2 t ht, hBd.2 t ht]
    have e1 : dft (2 ^ A.exp) A.omega (aget A.coeffs) t =
        dft (2 ^ A.exp) A.omega (aget a) t :=
      dft_congr (fun j _ => by rw [hcoA, aget_padded]) t
    have e2 : dft (2 ^ A.exp) A.omega (aget B.coeffs) t =
        dft (2 ^ A.exp) A.omega (aget b) t :=
      dft_congr (fun j _ => by rw [hcoB, aget_padded]) t
    rw [e1, e2]
  rw [hR, hoinv, aget_map_lt _ (by rw [hMd.1]; exact hkn), hMd.2 k hkn,
    dft_congr hint k,
    dft_inv_prod (by positivity) hω0 hω1 hinj (aget a) (aget b) la lb hva hvb hdeg k hkn,
    hminv, smul_smul, inv_mul_cancel₀ (cast_two_pow_ne_zero hne), one_smul]

/-! ### Concrete instantiations of the claims over `ZMod 17` -/

/-- Instantiation of C1 at `F = G = ZMod 17`. -/
theorem claim_C1_witness :
    ((1 : ℕ) ≤ 4 ∧ (3 : ZMod 17) ^ 2 ^ 4 = 1 ∧ (3 : ZMod 17) ^ 2 ^ (4 - 1) = -1 ∧
      (-1 : ZMod 17) ≠ 1 ∧
      from_coeffs 4 (3 : ZMod 17) 3 [(1 : ZMod 17), 2, 3] = Except.ok exD) ∧
    ((exD.fft none 1).ifft none 2).coeffs = exD.coeffs ∧
    ((exD.ifft none 1).fft none 2).coeffs = exD.coeffs :=
  ⟨⟨by decide, by decide, by decide, by decide, rfl⟩,
    claim_C1_fft_ifft_roundtrip 4 (by decide) (3 : ZMod 17) 3 (by decide) (by decide)
      (by decide) [(1 : ZMod 17), 2, 3] exD rfl 1 2⟩

/-- Instantiation of C2 at `F = G = ZMod 17` with `ω = 13` of order `4`. -/
theorem claim_C2_witness :
    ([(1 : ZMod 17), 2, 3, 4].length = 2 ^ 2 ∧ (1 : ℕ) ≤ 2 ∧
      (13 : ZMod 17) ^ 2 ^ 2 = 1 ∧ (1 ≤ 2 → (13 : ZMod 17) ^ 2 ^ (2 - 1) = -1)) ∧
    parallel_fft [(1 : ZMod 17), 2, 3, 4] (13 : ZMod 17) 2 1 =
      serial_fft [(1 : ZMod 17), 2, 3, 4] (13 : ZMod 17) 2 :=
  ⟨⟨by decide, by decide, by decide, by decide⟩,
    claim_C2_parallel_eq_serial [(1 : ZMod 17), 2, 3, 4] (13 : ZMod 17) 2 1
      (by decide) (by decide) (by decide) (by decide)⟩

/-- Instantiation of C3 (amended) at `F = ZMod 17`, `S = 4`. -/
theorem claim_C3_witness :
    (1 : ℕ) ≤ 4 ∧
    from_coeffs 4 (3 : ZMod 17) 3 (List.replicate (2 ^ (4 - 1) + 1) (0 : ZMod 17)) =
      Except.error SynthesisError.PolynomialDegreeTooLarge :=
  ⟨by decide, (claim_C3_from_coeffs_amended 4 (by decide) (3 : ZMod 17) 3
    ([] : List (ZMod 17))).2.2.2⟩

/-- Instantiation of C4 at `F = G = ZMod 17`: `a = 1 + 2x + 3x²`,
`b = 1 + x`, checked at output slot `k = 2`. -/
theorem claim_C4_witness :
    ((1 : ℕ) ≤ 4 ∧ (3 : ZMod 17) ^ 2 ^ 4 = 1 ∧ (3 : ZMod 17) ^ 2 ^ (4 - 1) = -1 ∧
      (-1 : ZMod 17) ≠ 1 ∧
      from_coeffs 4 (3 : ZMod 17) 3 [(1 : ZMod 17), 2, 3] = Except.ok exD ∧
      from_coeffs 4 (3 : ZMod 17) 3 [(1 : ZMod 17), 1, 0] = Except.ok exDB ∧
      3 + 2 ≤ 2 ^ exD.exp + 1 ∧ (2 : ℕ) < 3 + 2 - 1) ∧
    aget (((exD.fft none 1).mul_assign (exDB.fft none 1)).ifft none 2).coeffs 2 =
      ∑ i ∈ Finset.range (2 + 1),
        aget [(1 : ZMod 17), 1, 0] i • aget [(1 : ZMod 17), 2, 3] (2 - i) :=
  ⟨⟨by decide, by decide, by decide, by decide, rfl, rfl, by decide, by decide⟩,
    claim_C4_convolution 4 (by decide) (3 : ZMod 17) 3 (by decide) (by decide)
      (by decide) [(1 : ZMod 17), 2, 3] [(1 : ZMod 17), 1, 0] rfl exD exDB rfl rfl
      3 2 (fun i hi => aget_of_length_le hi)
      (by
        intro i hi
        rcases i with _ | _ | _ | i
        · omega
        · omega
        · rfl
        · exact aget_of_length_le (by show 3 ≤ i + 3; omega))
      (by decide) 1 1 2 2 (by decide)⟩

/-- Instantiation of C5 at `F = G = ZMod 17` with coset generator `3`. -/
theorem claim_C5_witness :
    ((1 : ℕ) ≤ 4 ∧ (3 : ZMod 17) ^ 2 ^ 4 = 1 ∧ (3 : ZMod 17) ^ 2 ^ (4 - 1) = -1 ∧
      (-1 : ZMod 17) ≠ 1 ∧ (3 : ZMod 17) ≠ 0 ∧
      from_coeffs 4 (3 : ZMod 17) 3 [(1 : ZMod 17), 2, 3] = Except.ok exD ∧
      (1 : ℕ) ≤ 1 ∧ (1 : ℕ) ≤ 2) ∧
    ((exD.coset_fft 3 none 1 1).icoset_fft none 2 2).coeffs = exD.coeffs ∧
    ((exD.icoset_fft none 1 1).coset_fft 3 none 2 2).coeffs = exD.coeffs :=
  ⟨⟨by decide, by decide, by decide, by decide, by decide, rfl, by decide, by decide⟩,
    claim_C5_coset_roundtrip 4 (by decide) (3 : ZMod 17) 3 (by decide) (by decide)
      (by decide) (by decide) [(1 : ZMod 17), 2, 3] exD rfl 1 2 1 2
      (by decide) (by decide)⟩

/-- Instantiation of C6 at `F = G = ZMod 17`, `g = 5`, chunk size `2`. -/
theorem claim_C6_witness :
    (1 : ℕ) ≤ 2 ∧
    (exD.distribute_powers 2 5).coeffs.length = exD.coeffs.length ∧
    aget (exD.distribute_powers 2 5).coeffs 1 =
      (5 : ZMod 17) ^ 1 • aget exD.coeffs 1 :=
  ⟨by decide, (claim_C6_distribute_powers exD 5 2 (by decide)).1,
    (claim_C6_distribute_powers exD 5 2 (by decide)).2 1 (by decide)⟩

/-- Instantiation of C7 at `F = G = ZMod 17`, checked at index `0`. -/
theorem claim_C7_witness :
    ((1 : ℕ) ≤ 4 ∧ (3 : ZMod 17) ^ 2 ^ (4 - 1) ≠ 1 ∧
      from_coeffs 4 (3 : ZMod 17) 3 [(1 : ZMod 17), 2, 3] = Except.ok exD) ∧
    exD.z 3 ≠ 0 ∧ exD.z 3 * (exD.z 3)⁻¹ = 1 ∧
    (exD.divide_by_z_on_coset 3).coeffs.length = exD.coeffs.length ∧
    aget (exD.divide_by_z_on_coset 3).coeffs 0 =
      ((3 : ZMod 17) ^ exD.coeffs.length - 1)⁻¹ • aget exD.coeffs 0 :=
  ⟨⟨by decide, by decide, rfl⟩,
    (claim_C7_divide_by_z_on_coset 4 (by decide) (3 : ZMod 17) 3 (by decide)
      [(1 : ZMod 17), 2, 3] exD rfl).1,
    (claim_C7_divide_by_z_on_coset 4 (by decide) (3 : ZMod 17) 3 (by decide)
      [(1 : ZMod 17), 2, 3] exD rfl).2.1,
    (claim_C7_divide_by_z_on_coset 4 (by decide) (3 : ZMod 17) 3 (by decide)
      [(1 : ZMod 17), 2, 3] exD rfl).2.2.1,
    (claim_C7_divide_by_z_on_coset 4 (by decide) (3 : ZMod 17) 3 (by decide)
      [(1 : ZMod 17), 2, 3] exD rfl).2.2.2 0 (by decide)⟩

/-- Instantiation of C8 at `F = G = ZMod 17`, evaluated at `tau = 13`,
`k = 1` and `gen = 3`. -/
theorem claim_C8_witness :
    ((1 : ℕ) ≤ 4 ∧ (3 : ZMod 17) ^ 2 ^ 4 = 1 ∧ (3 : ZMod 17) ^ 2 ^ (4 - 1) ≠ 1 ∧
      from_coeffs 4 (3 : ZMod 17) 3 [(1 : ZMod 17), 2, 3] = Except.ok exD) ∧
    exD.z 13 = (13 : ZMod 17) ^ exD.coeffs.length - 1 ∧
    exD.z (exD.omega ^ (1 : ℤ)) = 0 ∧
    exD.z 3 ≠ 0 :=
  ⟨⟨by decide, by decide, by decide, rfl⟩,
    (claim_C8_z 4 (by decide) (3 : ZMod 17) 3 (by decide) (by decide)
      [(1 : ZMod 17), 2, 3] exD rfl).1 13,
    (claim_C8_z 4 (by decide) (3 : ZMod 17) 3 (by decide) (by decide)
      [(1 : ZMod 17), 2, 3] exD rfl).2.1 1,
    (claim_C8_z 4 (by decide) (3 : ZMod 17) 3 (by decide) (by decide)
      [(1 : ZMod 17), 2, 3] exD rfl).2.2⟩

/-- Instantiation of C9 at `F = G = ZMod 17` on the vector `[1, 2, 3]`. -/
theorem claim_C9_witness :
    (1 : ℕ) ≤ 4 ∧
    exD.coeffs.length = 2 ^ Nat.clog 2 [(1 : ZMod 17), 2, 3].length ∧
    exD.coeffs = [(1 : ZMod 17), 2, 3] ++
      List.replicate
        (2 ^ Nat.clog 2 [(1 : ZMod 17), 2, 3].length -
          [(1 : ZMod 17), 2, 3].length) 0 ∧
    exD.exp = Nat.clog 2 [(1 : ZMod 17), 2, 3].length ∧
    [(1 : ZMod 17), 2, 3].length ≤ 2 ^ exD.exp :=
  ⟨by decide,
    (claim_C9_from_coeffs 4 (by decide) (3 : ZMod 17) 3
      [(1 : ZMod 17), 2, 3] exD rfl).1,
    (claim_C9_from_coeffs 4 (by decide) (3 : ZMod 17) 3
      [(1 : ZMod 17), 2, 3] exD rfl).2.1,
    (claim_C9_from_coeffs 4 (by decide) (3 : ZMod 17) 3
      [(1 : ZMod 17), 2, 3] exD rfl).2.2.1,
    (claim_C9_from_coeffs 4 (by decide) (3 : ZMod 17) 3
      [(1 : ZMod 17), 2, 3] exD rfl).2.2.2.1⟩

end BellmanDomain
